import Mathlib

/-!
# Verification of the spanlox front end and evaluator

Shallow embedding of the spanlox pipeline (scanner → parser → interpreter)
from the Python sources `loxtoken.py`, `scanner.py`, `loxparser.py` and
`interpreter.py`, together with proofs about the claims of the spec.

Python machine floats appear only on values that the checked programs
handle exactly (small integers and literals parsed from digit strings);
numbers are modelled as rationals, on which all the arithmetic the
theorems touch agrees with IEEE doubles.
-/

namespace Spanlox

/-! ## Token definitions (`loxtoken.py`) -/

/-- The `TokenType` enumeration of `loxtoken.py`. -/
inductive TokenType where
  | LEFT_PAREN | RIGHT_PAREN | LEFT_BRACE | RIGHT_BRACE
  | COMMA | DOT | MINUS | PLUS | SEMICOLON | SLASH | STAR
  | BANG | BANG_EQUAL
  | EQUAL | EQUAL_EQUAL
  | GREATER | GREATER_EQUAL
  | LESS | LESS_EQUAL
  | IDENTIFIER | STRING | NUMBER
  | AND | CLASS | ELSE | FALSE | FUN | FOR | IF | NIL | OR
  | PRINT | RETURN | SUPER | THIS | TRUE | VAR | WHILE
  | EOF
  deriving DecidableEq, Repr

/-- A parsed literal value attached to a token (`Token.literal` is `Any` in
Python; the scanner only ever stores a float, a string, or `None`). -/
inductive Lit where
  | num (q : ℚ)
  | str (s : String)
  deriving DecidableEq, Repr

/-- The `Token` class of `loxtoken.py`: kind, lexeme, optional literal, line. -/
structure Token where
  token_type : TokenType
  lexeme : String
  literal : Option Lit
  line : Nat
  deriving DecidableEq, Repr

/-- The `KEYWORDS` dict of `loxtoken.py`. It has fifteen entries: `"for"`
is absent from the source table (while `TokenType.FOR` exists). -/
def KEYWORDS : List (String × TokenType) :=
  [("and", .AND), ("class", .CLASS), ("else", .ELSE), ("false", .FALSE),
   ("fun", .FUN), ("if", .IF), ("nil", .NIL), ("or", .OR),
   ("print", .PRINT), ("return", .RETURN), ("super", .SUPER),
   ("this", .THIS), ("true", .TRUE), ("var", .VAR), ("while", .WHILE)]

/-! ## Runtime values and AST (`expression.py` / `loxparser.py`) -/

/-- Runtime values: `None`, Python bool, Python number, Python str. -/
inductive Value where
  | vnil
  | vbool (b : Bool)
  | vnum (q : ℚ)
  | vstr (s : String)
  deriving DecidableEq, Repr

/-- The expression AST produced by `loxparser.py`. The parser stores the
operator `Token` object itself in `Unary`/`Binary` nodes (via
`self.previous()`), so the embedding keeps the whole token. -/
inductive Expr where
  | literal (value : Value)
  | grouping (expression : Expr)
  | unary (operator : Token) (right : Expr)
  | binary (left : Expr) (operator : Token) (right : Expr)
  deriving DecidableEq, Repr

/-- `Literal(self.previous().literal)` in `Parser.primary`: the Python value
stored in a `Literal` node for a NUMBER/STRING token is the token's
`literal` field, which is `None` when absent. -/
def litToValue : Option Lit → Value
  | none => .vnil
  | some (.num q) => .vnum q
  | some (.str s) => .vstr s

/-! ## Interpreter (`interpreter.py`) -/

/-- Failure outcomes of evaluation: the repository's `LoxRuntimeError` and
`InterpretationError`, plus the Python exceptions that untyped operator
applications can raise (`TypeError`, `ZeroDivisionError`). -/
inductive RunErr where
  | loxRuntimeError (operator : Token) (message : String)
  | interpretationError (message : String)
  | typeError
  | zeroDivisionError
  deriving DecidableEq, Repr

/-- `isinstance(x, numbers.Number)` view of a value: Python `bool` is a
subclass of `int`, hence a `Number` (with `True = 1`, `False = 0`). -/
def toNum : Value → Option ℚ
  | .vnum q => some q
  | .vbool b => some (if b then 1 else 0)
  | _ => none

/-- `Interpreter.is_truthy`: `None` and `False` are falsy, all else truthy. -/
def is_truthy : Value → Bool
  | .vnil => false
  | .vbool b => b
  | _ => true

/-- `Interpreter.is_equal`, i.e. Python `a == b` across the four value
kinds: numbers (including bools) compare numerically, strings compare as
strings, `None` equals only `None`, and any other cross-kind pair is
unequal. -/
def is_equal (a b : Value) : Bool :=
  match toNum a, toNum b with
  | some x, some y => x == y
  | _, _ =>
    match a, b with
    | .vstr s, .vstr t => s == t
    | .vnil, .vnil => true
    | _, _ => false

/-- `Interpreter.check_number_operand`: raises
`LoxRuntimeError(operator, "Operand must be a number")` unless the operand
is a `Number`. -/
def check_number_operand (operator : Token) (right : Value) : Except RunErr Unit :=
  if (toNum right).isSome then .ok () else
    .error (.loxRuntimeError operator "Operand must be a number")

/-- Python `left - right` on runtime values: defined on `Number`s
(including bools), `TypeError` otherwise. -/
def py_sub (a b : Value) : Except RunErr Value :=
  match toNum a, toNum b with
  | some x, some y => .ok (.vnum (x - y))
  | _, _ => .error .typeError

/-- Python `left / right` on runtime values: numeric division, raising
`ZeroDivisionError` on a zero divisor, `TypeError` on non-numbers. -/
def py_div (a b : Value) : Except RunErr Value :=
  match toNum a, toNum b with
  | some x, some y => if y = 0 then .error .zeroDivisionError else .ok (.vnum (x / y))
  | _, _ => .error .typeError

/-- Python `left * right` on runtime values: numeric product on `Number`s;
a string multiplied by a bool (an `int`) is repetition; every other
combination (including `str * float`, since scanner numbers are floats)
raises `TypeError`. -/
def py_mul (a b : Value) : Except RunErr Value :=
  match toNum a, toNum b with
  | some x, some y => .ok (.vnum (x * y))
  | _, _ =>
    match a, b with
    | .vstr s, .vbool b => .ok (.vstr (if b then s else ""))
    | .vbool b, .vstr s => .ok (.vstr (if b then s else ""))
    | _, _ => .error .typeError

/-- Python `<` on runtime values: numeric order on `Number`s, lexicographic
order on strings, `TypeError` on mixed kinds. The other three comparisons
are derived the same way. -/
def py_lt (a b : Value) : Except RunErr Value :=
  match toNum a, toNum b with
  | some x, some y => .ok (.vbool (decide (x < y)))
  | _, _ =>
    match a, b with
    | .vstr s, .vstr t => .ok (.vbool (decide (s < t)))
    | _, _ => .error .typeError

/-- Python `<=` on runtime values. -/
def py_le (a b : Value) : Except RunErr Value :=
  match toNum a, toNum b with
  | some x, some y => .ok (.vbool (decide (x ≤ y)))
  | _, _ =>
    match a, b with
    | .vstr s, .vstr t => .ok (.vbool (decide (s ≤ t)))
    | _, _ => .error .typeError

/-- Python `>` on runtime values. -/
def py_gt (a b : Value) : Except RunErr Value := py_lt b a

/-- Python `>=` on runtime values. -/
def py_ge (a b : Value) : Except RunErr Value := py_le b a

/-- Python `==` between a `Token` instance and a `TokenType` enum member,
as written in `Interpreter.visit_unary` (`expr.operator == TokenType.BANG`).
`Token` defines no `__eq__`, so the comparison falls back to object
identity (and the enum member likewise), and a `Token` object is never the
same object as a `TokenType` member: the result is always `False`. -/
def token_eq_tokentype (_t : Token) (_k : TokenType) : Bool := false

/-- Python `float(x)` for a value already checked to be a `Number`; on any
other value the call would raise (that case is unreachable after
`check_number_operand`). -/
def py_float (v : Value) : Except RunErr ℚ :=
  match toNum v with
  | some x => .ok x
  | none => .error .typeError

/-- Body of `Interpreter.visit_unary` after the operand is evaluated.
Note the source compares the stored operator `Token` against a `TokenType`
member directly (not via `.token_type`), and the BANG arm returns
`self.is_truthy(right)` with no negation. -/
def visit_unary_result (operator : Token) (right : Value) : Except RunErr Value :=
  if token_eq_tokentype operator .BANG then
    .ok (.vbool (is_truthy right))
  else if token_eq_tokentype operator .MINUS then do
    let _ ← check_number_operand operator right
    let x ← py_float right
    .ok (.vnum (-1 * x))
  else
    .ok .vnil

/-- Body of `Interpreter.visit_binary` after both operands are evaluated;
dispatches on `expr.operator.token_type`. The PLUS arm is overloaded:
`Number`s add, strings concatenate, anything else raises
`InterpretationError("mismatched types")`. The fall-through returns
`None`. -/
def visit_binary_result (operator : Token) (left right : Value) : Except RunErr Value :=
  match operator.token_type with
  | .MINUS => py_sub left right
  | .SLASH => py_div left right
  | .STAR => py_mul left right
  | .PLUS =>
    match toNum left, toNum right with
    | some x, some y => .ok (.vnum (x + y))
    | _, _ =>
      match left, right with
      | .vstr s, .vstr t => .ok (.vstr (s ++ t))
      | _, _ => .error (.interpretationError "mismatched types")
  | .GREATER => py_gt left right
  | .GREATER_EQUAL => py_ge left right
  | .LESS => py_lt left right
  | .LESS_EQUAL => py_le left right
  | .BANG_EQUAL => .ok (.vbool (!is_equal left right))
  | .EQUAL_EQUAL => .ok (.vbool (is_equal left right))
  | _ => .ok .vnil

/-- `Interpreter.evaluate`, dispatching through the visitor to
`visit_literal` / `visit_grouping` / `visit_unary` / `visit_binary`.
`visit_grouping` evaluates the inner expression but has no `return`
statement, so it returns `None`. Operands of a binary node are evaluated
left to right; a raised exception propagates. -/
def evaluate : Expr → Except RunErr Value
  | .literal v => .ok v
  | .grouping e => do
    let _ ← evaluate e
    .ok .vnil
  | .unary operator e => do
    let right ← evaluate e
    visit_unary_result operator right
  | .binary l operator r => do
    let left ← evaluate l
    let right ← evaluate r
    visit_binary_result operator left right

/-! ## Scanner (`scanner.py`)

The scanner's mutable state (`tokens`, `start`, `current`, `line`, plus the
error reporter's accumulated reports) is passed explicitly. The source is
a fixed list of characters. The only exception the scanner can raise is
the `IndexError` of `Scanner.advance` (`self.source[self.current]` with
the cursor at or past the end); it is modelled as the `Except` error case,
carrying the state at the raise. Each `while` loop of the source is a
structurally recursive function on the countdown `len - current`, which is
exactly the number of iterations the loop can still make (every iteration
moves `current` forward by one and no loop runs past the end). -/

namespace Scanner

/-- The mutable fields of the `Scanner` object, together with the list of
`(line, message)` reports sent to `error_reporter.scan_error`. -/
structure SState where
  tokens : List Token
  start : Nat
  current : Nat
  line : Nat
  errors : List (Nat × String)
  deriving DecidableEq, Repr

/-- Python slice `source[a:b]` (for the in-range, forward slices the
scanner takes; out-of-range bounds clamp, as in Python). -/
def slice (src : List Char) (a b : Nat) : String :=
  String.mk ((src.drop a).take (b - a))

/-- `Scanner.is_at_end`. -/
def is_at_end (src : List Char) (st : SState) : Bool :=
  decide (st.current ≥ src.length)

/-- `Scanner.advance`: reads `source[current]` (raising `IndexError` when
out of range) and increments the cursor. -/
def advance (src : List Char) (st : SState) : Except SState (Char × SState) :=
  match src.get? st.current with
  | some c => .ok (c, { st with current := st.current + 1 })
  | none => .error st

/-- `Scanner.peek`: next character without consuming, `'\x00'` at end. -/
def peekC (src : List Char) (st : SState) : Char :=
  if is_at_end src st then '\x00' else src.getD st.current '\x00'

/-- `Scanner.peek_next`. -/
def peek_nextC (src : List Char) (st : SState) : Char :=
  if st.current + 1 ≥ src.length then '\x00' else src.getD (st.current + 1) '\x00'

/-- `Scanner.match`: conditionally consume the next character when it
equals `expected`. -/
def matchC (src : List Char) (expected : Char) (st : SState) : Bool × SState :=
  if is_at_end src st then (false, st)
  else if src.getD st.current '\x00' ≠ expected then (false, st)
  else (true, { st with current := st.current + 1 })

/-- `Scanner.add_token`: appends `Token(token_type, source[start:current],
literal, line)`. -/
def add_token (src : List Char) (token_type : TokenType) (literal : Option Lit)
    (st : SState) : SState :=
  { st with tokens := st.tokens ++ [⟨token_type, slice src st.start st.current, literal, st.line⟩] }

/-- The `while` loop of `Scanner.tokenize_string`: consume until a closing
quote or end of input, bumping the line counter on embedded newlines. -/
def string_loop (src : List Char) : Nat → SState → SState
  | 0, st => st
  | k + 1, st =>
    if peekC src st ≠ '"' && !is_at_end src st then
      string_loop src k
        { st with
          current := st.current + 1
          line := if peekC src st = '\n' then st.line + 1 else st.line }
    else st

/-- `Scanner.tokenize_string`. After the loop, an unterminated string is
reported through the error sink, but the following unconditional
`self.advance()` (meant to consume the closing quote) then indexes past
the end of the source and raises `IndexError`. -/
def tokenize_string (src : List Char) (st : SState) : Except SState SState :=
  let st1 := string_loop src (src.length - st.current) st
  let st2 :=
    if is_at_end src st1 then
      { st1 with errors := st1.errors ++ [(st1.line, "Unterminated string")] }
    else st1
  match advance src st2 with
  | .error e => .error e
  | .ok (_, st3) =>
    .ok (add_token src .STRING (some (.str (slice src (st3.start + 1) (st3.current - 1)))) st3)

/-- A maximal run of digits (the two `while self.peek().isdigit()` loops of
`Scanner.tokenize_number`). -/
def digits_loop (src : List Char) : Nat → SState → SState
  | 0, st => st
  | k + 1, st =>
    if (peekC src st).isDigit then digits_loop src k { st with current := st.current + 1 }
    else st

/-- Value of `float(source[start:current])` on the digit strings (with an
optional single `'.'` and fractional digits) the scanner produces. -/
def digitsVal (cs : List Char) : Nat :=
  cs.foldl (fun acc c => acc * 10 + (c.toNat - '0'.toNat)) 0

/-- Numeric value of a scanned number lexeme. -/
def strToNum (s : String) : ℚ :=
  let cs := s.toList
  let whole := cs.takeWhile (·.isDigit)
  match cs.dropWhile (·.isDigit) with
  | '.' :: frac =>
    (digitsVal whole : ℚ) + (digitsVal frac : ℚ) / (10 : ℚ) ^ frac.length
  | _ => (digitsVal whole : ℚ)

/-- `Scanner.tokenize_number`: whole part, then a fractional part only
when the dot is followed by a digit. -/
def tokenize_number (src : List Char) (st : SState) : SState :=
  let st1 := digits_loop src (src.length - st.current) st
  let st2 :=
    if peekC src st1 = '.' && (peek_nextC src st1).isDigit then
      let stp := { st1 with current := st1.current + 1 }
      digits_loop src (src.length - stp.current) stp
    else st1
  add_token src .NUMBER (some (.num (strToNum (slice src st2.start st2.current)))) st2

/-- The `while self.peek().isalnum()` loop of `Scanner.tokenize_identifier`. -/
def alnum_loop (src : List Char) : Nat → SState → SState
  | 0, st => st
  | k + 1, st =>
    if (peekC src st).isAlphanum then alnum_loop src k { st with current := st.current + 1 }
    else st

/-- `Scanner.tokenize_identifier`: maximal munch, then the keyword-table
lookup; identifiers that are not keys of `KEYWORDS` become `IDENTIFIER`. -/
def tokenize_identifier (src : List Char) (st : SState) : SState :=
  let st1 := alnum_loop src (src.length - st.current) st
  match KEYWORDS.lookup (slice src st1.start st1.current) with
  | some tt => add_token src tt none st1
  | none => add_token src .IDENTIFIER none st1

/-- The line-comment loop (`// …` consumed to end of line, no token). -/
def comment_loop (src : List Char) : Nat → SState → SState
  | 0, st => st
  | k + 1, st =>
    if peekC src st ≠ '\n' && !is_at_end src st then
      comment_loop src k { st with current := st.current + 1 }
    else st

/-- The dispatch of `Scanner.scan_token` on the character `c` returned by
the initial `self.advance()`, starting from the state after that advance.
The `char.isidentifier()` test is modelled for ASCII sources as
letter-or-underscore. -/
def scan_token_body (src : List Char) (c : Char) (st : SState) : Except SState SState :=
  if c = '(' then .ok (add_token src .LEFT_PAREN none st)
  else if c = ')' then .ok (add_token src .RIGHT_PAREN none st)
  else if c = '{' then .ok (add_token src .LEFT_BRACE none st)
  else if c = '}' then .ok (add_token src .RIGHT_BRACE none st)
  else if c = ',' then .ok (add_token src .COMMA none st)
  else if c = '.' then .ok (add_token src .DOT none st)
  else if c = '-' then .ok (add_token src .MINUS none st)
  else if c = '+' then .ok (add_token src .PLUS none st)
  else if c = ';' then .ok (add_token src .SEMICOLON none st)
  else if c = '*' then .ok (add_token src .STAR none st)
  else if c = '!' then
    let ms := matchC src '=' st
    .ok (add_token src (if ms.1 then .BANG_EQUAL else .BANG) none ms.2)
  else if c = '=' then
    let ms := matchC src '=' st
    .ok (add_token src (if ms.1 then .EQUAL_EQUAL else .EQUAL) none ms.2)
  else if c = '<' then
    let ms := matchC src '=' st
    .ok (add_token src (if ms.1 then .LESS_EQUAL else .LESS) none ms.2)
  else if c = '>' then
    let ms := matchC src '=' st
    .ok (add_token src (if ms.1 then .GREATER_EQUAL else .GREATER) none ms.2)
  else if c = '/' then
    let ms := matchC src '/' st
    if ms.1 then .ok (comment_loop src (src.length - ms.2.current) ms.2)
    else .ok (add_token src .SLASH none ms.2)
  else if c = ' ' || c = '\r' || c = '\t' then .ok st
  else if c = '\n' then .ok { st with line := st.line + 1 }
  else if c = '"' then tokenize_string src st
  else if c.isDigit then .ok (tokenize_number src st)
  else if c.isAlpha || c = '_' then .ok (tokenize_identifier src st)
  else .ok { st with errors := st.errors ++ [(st.line, "Unexpected character [" ++ String.mk [c] ++ "]")] }

/-- `Scanner.scan_token`: `char = self.advance()`, then the dispatch. -/
def scan_token (src : List Char) (st : SState) : Except SState SState := do
  let (c, st) ← advance src st
  scan_token_body src c st

/-- Outcome of the scanning loop. -/
inductive ScanOut where
  | done (st : SState)
  | raised (st : SState)
  | fuelOut
  deriving DecidableEq, Repr

/-- The `while` loop of `Scanner.scan_tokens`, with explicit fuel; each
iteration resets `start` to `current` and runs `scan_token`. `fuelOut`
never occurs with fuel at least `len - current` (proved below). -/
def scan_loop (src : List Char) : Nat → SState → ScanOut
  | 0, st => if st.current < src.length then .fuelOut else .done st
  | f + 1, st =>
    if st.current < src.length then
      match scan_token src { st with start := st.current } with
      | .ok st' => scan_loop src f st'
      | .error e => .raised e
    else .done st

/-- Result of `Scanner.scan_tokens`: the token list and the reported
lexical errors, or an uncaught `IndexError` (with the reports made before
the raise). -/
inductive ScanResult where
  | ok (tokens : List Token) (errors : List (Nat × String))
  | indexError (errors : List (Nat × String))
  | fuelOut
  deriving DecidableEq, Repr

/-- Initial scanner state. -/
def init : SState := ⟨[], 0, 0, 1, []⟩

/-- `Scanner.scan_tokens(source)`: run the loop, then append the EOF token
via `self.add_token(TokenType.EOF, 'EOF')` (whose lexeme is therefore the
slice `source[start:current]` left over from the final iteration). -/
def scan_tokens (source : String) : ScanResult :=
  let src := source.toList
  match scan_loop src (src.length + 1) init with
  | .done st =>
    let stF := add_token src .EOF (some (.str "EOF")) st
    .ok stF.tokens stF.errors
  | .raised st => .indexError st.errors
  | .fuelOut => .fuelOut

end Scanner

/-! ## Parser (`loxparser.py`)

Recursive descent over a fixed token list, the cursor `i` standing for
`self.current`. Results carry the cursor after the production. The
`ParseError` raised by `Parser.error` (after reporting through the sink)
and the `IndexError` a `peek` past the end of the token list would raise
are explicit outcomes. The mutual recursion (`unary` on itself, `primary`
back to `expression`) is driven by an explicit fuel; `fuelOut` is shown
below never to occur with fuel `8 * (len - i) + 8` on an EOF-terminated
list, which is the termination argument. -/

namespace Parser

/-- Outcome of a parsing production: value plus new cursor, a raised
`ParseError`, a raised `IndexError`, or fuel exhaustion. -/
inductive PRes (α : Type) where
  | ok (a : α) (i : Nat)
  | parseError
  | indexError
  | fuelOut
  deriving DecidableEq, Repr

/-- `Parser.peek`: `tokens[current]`, `none` for the `IndexError` case. -/
def peekT (ts : List Token) (i : Nat) : Option Token :=
  ts.get? i

/-- `Parser.previous`: `tokens[current-1]`; at cursor `0` the Python index
is `-1`, which wraps to the last element of the list. -/
def previousT (ts : List Token) (i : Nat) : Option Token :=
  if i = 0 then ts.getLast? else ts.get? (i - 1)

/-- `Parser.is_at_end`: whether the peeked token is `EOF`. -/
def is_at_endT (ts : List Token) (i : Nat) : Option Bool :=
  (peekT ts i).map (fun t => decide (t.token_type = .EOF))

/-- `Parser.check`: `False` at end, else compare the peeked kind. -/
def checkT (ts : List Token) (tt : TokenType) (i : Nat) : Option Bool :=
  match is_at_endT ts i with
  | none => none
  | some true => some false
  | some false => (peekT ts i).map (fun t => decide (t.token_type = tt))

/-- `Parser.advance`: move forward unless at end, return `previous()`. -/
def advanceT (ts : List Token) (i : Nat) : Option (Token × Nat) :=
  match is_at_endT ts i with
  | none => none
  | some b =>
    let i' := if b then i else i + 1
    (previousT ts i').map (fun t => (t, i'))

/-- `Parser.match(*types)`: try each kind in order, consuming on the first
hit. -/
def matchT (ts : List Token) (tts : List TokenType) (i : Nat) : Option (Bool × Nat) :=
  match tts with
  | [] => some (false, i)
  | tt :: rest =>
    match checkT ts tt i with
    | none => none
    | some true => (advanceT ts i).map (fun p => (true, p.2))
    | some false => matchT ts rest i

/-- `Parser.consume`: the expected kind or a raised `ParseError` (the
report's message is sent to the error sink, which the claims here do not
observe). -/
def consumeT (ts : List Token) (tt : TokenType) (i : Nat) : PRes Token :=
  match checkT ts tt i with
  | none => .indexError
  | some true =>
    match advanceT ts i with
    | none => .indexError
    | some (t, i') => .ok t i'
  | some false =>
    match peekT ts i with
    | none => .indexError
    | some _ => .parseError

/-- A grammar production of `loxparser.py`, one per parsing method of the
`Parser` class; the loop rules stand for the `while self.match(…)` loops
inside the binary-level methods and carry the left-folded accumulator.
The mutually recursive methods are run by the single fuelled interpreter
`runRule` below so that the recursion is structural (each call spends one
unit of fuel). -/
inductive Rule where
  | expr
  | eq
  | eqLoop (acc : Expr)
  | comp
  | compLoop (acc : Expr)
  | term
  | termLoop (acc : Expr)
  | factor
  | factorLoop (acc : Expr)
  | unary
  | primary

/-- One step of the recursive-descent parser: the body of the production
`r` at cursor `i`, spending one unit of fuel per method call or loop
iteration. Each arm transcribes the corresponding `loxparser.py` method. -/
def runRule (ts : List Token) : Nat → Rule → Nat → PRes Expr
  | 0, _, _ => .fuelOut
  | f + 1, r, i =>
    match r with
    | .expr => runRule ts f .eq i
    | .eq =>
      match runRule ts f .comp i with
      | .ok e i' => runRule ts f (.eqLoop e) i'
      | r => r
    | .eqLoop e =>
      match matchT ts [.BANG_EQUAL, .EQUAL_EQUAL] i with
      | none => .indexError
      | some (false, _) => .ok e i
      | some (true, i') =>
        match previousT ts i' with
        | none => .indexError
        | some op =>
          match runRule ts f .comp i' with
          | .ok r i'' => runRule ts f (.eqLoop (.binary e op r)) i''
          | r => r
    | .comp =>
      match runRule ts f .term i with
      | .ok e i' => runRule ts f (.compLoop e) i'
      | r => r
    | .compLoop e =>
      match matchT ts [.GREATER, .GREATER_EQUAL, .LESS, .LESS_EQUAL] i with
      | none => .indexError
      | some (false, _) => .ok e i
      | some (true, i') =>
        match previousT ts i' with
        | none => .indexError
        | some op =>
          match runRule ts f .term i' with
          | .ok r i'' => runRule ts f (.compLoop (.binary e op r)) i''
          | r => r
    | .term =>
      match runRule ts f .factor i with
      | .ok e i' => runRule ts f (.termLoop e) i'
      | r => r
    | .termLoop e =>
      match matchT ts [.MINUS, .PLUS] i with
      | none => .indexError
      | some (false, _) => .ok e i
      | some (true, i') =>
        match previousT ts i' with
        | none => .indexError
        | some op =>
          match runRule ts f .factor i' with
          | .ok r i'' => runRule ts f (.termLoop (.binary e op r)) i''
          | r => r
    | .factor =>
      match runRule ts f .unary i with
      | .ok e i' => runRule ts f (.factorLoop e) i'
      | r => r
    | .factorLoop e =>
      match matchT ts [.SLASH, .STAR] i with
      | none => .indexError
      | some (false, _) => .ok e i
      | some (true, i') =>
        match previousT ts i' with
        | none => .indexError
        | some op =>
          match runRule ts f .unary i' with
          | .ok r i'' => runRule ts f (.factorLoop (.binary e op r)) i''
          | r => r
    | .unary =>
      match matchT ts [.BANG, .MINUS] i with
      | none => .indexError
      | some (true, i') =>
        match previousT ts i' with
        | none => .indexError
        | some op =>
          match runRule ts f .unary i' with
          | .ok r i'' => .ok (.unary op r) i''
          | r => r
      | some (false, _) => runRule ts f .primary i
    | .primary =>
      match matchT ts [.FALSE] i with
      | none => .indexError
      | some (true, i') => .ok (.literal (.vbool false)) i'
      | some (false, _) =>
        match matchT ts [.TRUE] i with
        | none => .indexError
        | some (true, i') => .ok (.literal (.vbool true)) i'
        | some (false, _) =>
          match matchT ts [.NIL] i with
          | none => .indexError
          | some (true, i') => .ok (.literal .vnil) i'
          | some (false, _) =>
            match matchT ts [.NUMBER, .STRING] i with
            | none => .indexError
            | some (true, i') =>
              match previousT ts i' with
              | none => .indexError
              | some t => .ok (.literal (litToValue t.literal)) i'
            | some (false, _) =>
              match matchT ts [.LEFT_PAREN] i with
              | none => .indexError
              | some (true, i') =>
                match runRule ts f .expr i' with
                | .ok e i'' =>
                  match consumeT ts .RIGHT_PAREN i'' with
                  | .ok _ i3 => .ok (.grouping e) i3
                  | .parseError => .parseError
                  | .indexError => .indexError
                  | .fuelOut => .fuelOut
                | r => r
              | some (false, _) =>
                match peekT ts i with
                | none => .indexError
                | some _ => .parseError

/-- `Parser.expression`. -/
def expressionP (ts : List Token) (f : Nat) (i : Nat) : PRes Expr :=
  runRule ts f .expr i

/-- `Parser.term` (the subtraction/addition precedence level). -/
def termP (ts : List Token) (f : Nat) (i : Nat) : PRes Expr :=
  runRule ts f .term i

/-- `Parser.factor` (the division/multiplication precedence level). -/
def factorP (ts : List Token) (f : Nat) (i : Nat) : PRes Expr :=
  runRule ts f .factor i

/-- Result of `Parser.parse`: the tree, or `failed` when the caught
`ParseError` makes it return `None`; a raised `IndexError` propagates out
of `parse` (its `except` clause only catches `ParseError`). -/
inductive ParseResult where
  | tree (e : Expr)
  | failed
  | raisedIndex
  | fuelOut
  deriving DecidableEq, Repr

/-- `Parser.parse`: a single `expression()` from cursor `0`, catching
`ParseError`. The fuel `8 * len + 8` is sufficient (proved below). -/
def parse (ts : List Token) : ParseResult :=
  match expressionP ts (8 * ts.length + 8) 0 with
  | .ok e _ => .tree e
  | .parseError => .failed
  | .indexError => .raisedIndex
  | .fuelOut => .fuelOut

/-- Fuel slack each production needs on top of `8 * (tokens left)`: the
length of the call chain it may make before a token is consumed. -/
def ruleBudget : Rule → Nat
  | .expr => 7
  | .eq => 6
  | .comp => 5
  | .term => 4
  | .factor => 3
  | .unary => 2
  | .primary => 1
  | .eqLoop _ => 7
  | .compLoop _ => 7
  | .termLoop _ => 7
  | .factorLoop _ => 7

/-- Whether a successful run of the production must consume at least one
token (every method does; the loop bodies may run zero iterations). -/
def ruleStrict : Rule → Bool
  | .eqLoop _ => false
  | .compLoop _ => false
  | .termLoop _ => false
  | .factorLoop _ => false
  | _ => true

end Parser

/-! ## The pipeline of `lox.py` and canonical tokens -/

instance : DecidableEq (Except RunErr Value) := fun a b =>
  match a, b with
  | .ok x, .ok y => decidable_of_iff (x = y) (by simp)
  | .error x, .error y => decidable_of_iff (x = y) (by simp)
  | .ok _, .error _ => isFalse (by simp)
  | .error _, .ok _ => isFalse (by simp)

/-- `Lox.run` on an error-free prefix: scan, parse, then evaluate the
tree (the result `Interpreter.interpret` would print or report). `none`
when scanning raises, or when parsing yields no tree. -/
def pipeline_eval (source : String) : Option (Except RunErr Value) :=
  match Scanner.scan_tokens source with
  | .ok ts _ =>
    match Parser.parse ts with
    | .tree e => some (evaluate e)
    | _ => none
  | _ => none

/-- A `-` operator token (lexeme and line do not affect parsing or
evaluation). -/
def minusTok : Token := ⟨.MINUS, "-", none, 1⟩

/-- A `+` operator token. -/
def plusTok : Token := ⟨.PLUS, "+", none, 1⟩

/-- A `*` operator token. -/
def starTok : Token := ⟨.STAR, "*", none, 1⟩

/-- A `/` operator token. -/
def slashTok : Token := ⟨.SLASH, "/", none, 1⟩

/-- A `!` operator token. -/
def bangTok : Token := ⟨.BANG, "!", none, 1⟩

/-- An end-of-input token. -/
def eofTok : Token := ⟨.EOF, "", some (.str "EOF"), 1⟩

/-- A number token carrying the value `q` (the lexeme is irrelevant to
parsing and evaluation). -/
def numTok (q : ℚ) : Token := ⟨.NUMBER, "", some (.num q), 1⟩

/-- A token list that ends with an `EOF` token, the shape `scan_tokens`
hands to the parser; `Parser.is_at_end` peeks unboundedly, so this is the
precondition under which the parser's cursor stays inside the list. -/
def eof_terminated (ts : List Token) : Prop :=
  ∃ t, ts.getLast? = some t ∧ t.token_type = .EOF

/-! ### Precedence strata

Tree shapes of the grammar of `loxparser.py` (documented in the `Parser`
docstring), one predicate per precedence level. `IsTermE` for instance
says the tree is a left-leaning chain of `-`/`+` applications whose right
operands are all factors: a bare `+` node can never sit under a `*` node
except through parentheses. The soundness theorem below shows every tree
the parser returns lies in the corresponding stratum. -/

mutual

/-- Trees derivable from `primary`. -/
inductive IsPrimaryE : Expr → Prop where
  | lit (v : Value) : IsPrimaryE (.literal v)
  | grp (e : Expr) : IsEqualityE e → IsPrimaryE (.grouping e)

/-- Trees derivable from `unary`. -/
inductive IsUnaryE : Expr → Prop where
  | primary (e : Expr) : IsPrimaryE e → IsUnaryE e
  | un (op : Token) (e : Expr) :
      op.token_type = .BANG ∨ op.token_type = .MINUS →
      IsUnaryE e → IsUnaryE (.unary op e)

/-- Trees derivable from `factor` (left-leaning `/`·`*` chains). -/
inductive IsFactorE : Expr → Prop where
  | unary (e : Expr) : IsUnaryE e → IsFactorE e
  | bin (l : Expr) (op : Token) (r : Expr) :
      IsFactorE l → op.token_type = .SLASH ∨ op.token_type = .STAR →
      IsUnaryE r → IsFactorE (.binary l op r)

/-- Trees derivable from `term` (left-leaning `-`·`+` chains). -/
inductive IsTermE : Expr → Prop where
  | factor (e : Expr) : IsFactorE e → IsTermE e
  | bin (l : Expr) (op : Token) (r : Expr) :
      IsTermE l → op.token_type = .MINUS ∨ op.token_type = .PLUS →
      IsFactorE r → IsTermE (.binary l op r)

/-- Trees derivable from `comparison`. -/
inductive IsComparisonE : Expr → Prop where
  | term (e : Expr) : IsTermE e → IsComparisonE e
  | bin (l : Expr) (op : Token) (r : Expr) :
      IsComparisonE l →
      op.token_type = .GREATER ∨ op.token_type = .GREATER_EQUAL ∨
        op.token_type = .LESS ∨ op.token_type = .LESS_EQUAL →
      IsTermE r → IsComparisonE (.binary l op r)

/-- Trees derivable from `equality` (equivalently `expression`). -/
inductive IsEqualityE : Expr → Prop where
  | comp (e : Expr) : IsComparisonE e → IsEqualityE e
  | bin (l : Expr) (op : Token) (r : Expr) :
      IsEqualityE l →
      op.token_type = .BANG_EQUAL ∨ op.token_type = .EQUAL_EQUAL →
      IsComparisonE r → IsEqualityE (.binary l op r)

end

/-- The stratum of trees a production may return. -/
def ruleStratum : Parser.Rule → Expr → Prop
  | .expr, e => IsEqualityE e
  | .eq, e => IsEqualityE e
  | .eqLoop _, e => IsEqualityE e
  | .comp, e => IsComparisonE e
  | .compLoop _, e => IsComparisonE e
  | .term, e => IsTermE e
  | .termLoop _, e => IsTermE e
  | .factor, e => IsFactorE e
  | .factorLoop _, e => IsFactorE e
  | .unary, e => IsUnaryE e
  | .primary, e => IsPrimaryE e

/-- Premise on the accumulator a loop production is folding. -/
def ruleAccOk : Parser.Rule → Prop
  | .eqLoop acc => IsEqualityE acc
  | .compLoop acc => IsComparisonE acc
  | .termLoop acc => IsTermE acc
  | .factorLoop acc => IsFactorE acc
  | _ => True

/-- `Interpreter.visit_unary` never takes either operator branch: the
`Token`-versus-`TokenType` comparisons are identity comparisons between
objects of different classes, hence always `False`, and the method falls
through to `return None`. -/
theorem visit_unary_always_nil (t : Token) (v : Value) :
    visit_unary_result t v = .ok .vnil := rfl

/-! ## Scanner lemmas: cursor progress and the final state's shape -/

namespace Scanner

theorem advance_ok {src : List Char} {st st' : SState} {c : Char}
    (h : advance src st = .ok (c, st')) :
    st' = { st with current := st.current + 1 } ∧ st.current < src.length := by
  unfold advance at h
  cases hg : src.get? st.current with
  | none => rw [hg] at h; cases h
  | some d =>
    rw [hg] at h
    injection h with h
    injection h with hc hst
    refine ⟨hst.symm, ?_⟩
    by_contra hle
    rw [List.get?_eq_none.mpr (Nat.le_of_not_lt hle)] at hg
    cases hg

theorem string_loop_state (src : List Char) :
    ∀ (k : Nat) (st : SState), st.current ≤ (string_loop src k st).current ∧
      (string_loop src k st).start = st.start := by
  intro k
  induction k with
  | zero => exact fun st => ⟨le_rfl, rfl⟩
  | succ k ih =>
    intro st
    rw [string_loop]
    split
    · have h := ih { st with current := st.current + 1, line := if peekC src st = '\n' then st.line + 1 else st.line }
      dsimp only at h
      exact ⟨le_trans (Nat.le_succ _) h.1, h.2⟩
    · exact ⟨le_rfl, rfl⟩

theorem digits_loop_state (src : List Char) :
    ∀ (k : Nat) (st : SState), st.current ≤ (digits_loop src k st).current ∧
      (digits_loop src k st).start = st.start := by
  intro k
  induction k with
  | zero => exact fun st => ⟨le_rfl, rfl⟩
  | succ k ih =>
    intro st
    rw [digits_loop]
    split
    · have h := ih { st with current := st.current + 1 }
      dsimp only at h
      exact ⟨le_trans (Nat.le_succ _) h.1, h.2⟩
    · exact ⟨le_rfl, rfl⟩

theorem alnum_loop_state (src : List Char) :
    ∀ (k : Nat) (st : SState), st.current ≤ (alnum_loop src k st).current ∧
      (alnum_loop src k st).start = st.start := by
  intro k
  induction k with
  | zero => exact fun st => ⟨le_rfl, rfl⟩
  | succ k ih =>
    intro st
    rw [alnum_loop]
    split
    · have h := ih { st with current := st.current + 1 }
      dsimp only at h
      exact ⟨le_trans (Nat.le_succ _) h.1, h.2⟩
    · exact ⟨le_rfl, rfl⟩

theorem comment_loop_state (src : List Char) :
    ∀ (k : Nat) (st : SState), st.current ≤ (comment_loop src k st).current ∧
      (comment_loop src k st).start = st.start := by
  intro k
  induction k with
  | zero => exact fun st => ⟨le_rfl, rfl⟩
  | succ k ih =>
    intro st
    rw [comment_loop]
    split
    · have h := ih { st with current := st.current + 1 }
      dsimp only at h
      exact ⟨le_trans (Nat.le_succ _) h.1, h.2⟩
    · exact ⟨le_rfl, rfl⟩

theorem matchC_state (src : List Char) (e : Char) (st : SState) :
    st.current ≤ (matchC src e st).2.current ∧ (matchC src e st).2.start = st.start := by
  unfold matchC
  split_ifs <;> first
  | exact ⟨le_rfl, rfl⟩
  | exact ⟨Nat.le_succ _, rfl⟩

theorem tokenize_number_state (src : List Char) (st : SState) :
    st.current ≤ (tokenize_number src st).current ∧
      (tokenize_number src st).start = st.start := by
  unfold tokenize_number add_token
  dsimp only
  set st1 := digits_loop src (src.length - st.current) st with hst1
  have h1 := digits_loop_state src (src.length - st.current) st
  rw [← hst1] at h1
  split
  · have h2 := digits_loop_state src (src.length - (st1.current + 1))
      { st1 with current := st1.current + 1 }
    dsimp only at h2
    exact ⟨by omega, by rw [h2.2, h1.2]⟩
  · exact ⟨h1.1, h1.2⟩

theorem tokenize_identifier_state (src : List Char) (st : SState) :
    st.current ≤ (tokenize_identifier src st).current ∧
      (tokenize_identifier src st).start = st.start := by
  unfold tokenize_identifier add_token
  dsimp only
  split
  · exact ⟨(alnum_loop_state src _ _).1, (alnum_loop_state src _ _).2⟩
  · exact ⟨(alnum_loop_state src _ _).1, (alnum_loop_state src _ _).2⟩

theorem tokenize_string_ok_state {src : List Char} {st st' : SState}
    (h : tokenize_string src st = .ok st') :
    st.current ≤ st'.current ∧ st'.start = st.start := by
  unfold tokenize_string at h
  dsimp only at h
  set st1 := string_loop src (src.length - st.current) st with hst1
  set st2 :=
    (if is_at_end src st1 then
      { st1 with errors := st1.errors ++ [(st1.line, "Unterminated string")] }
    else st1) with hst2
  cases hadv : advance src st2 with
  | error e => rw [hadv] at h; cases h
  | ok p =>
    obtain ⟨c, st3⟩ := p
    rw [hadv] at h
    dsimp only at h
    injection h with h
    subst h
    obtain ⟨h3, _⟩ := advance_ok hadv
    subst h3
    have hcur2 : st2.current = st1.current := by
      rw [hst2]; split <;> rfl
    have hstart2 : st2.start = st1.start := by
      rw [hst2]; split <;> rfl
    constructor
    · have := (string_loop_state src (src.length - st.current) st).1
      rw [← hst1] at this
      show st.current ≤ st2.current + 1
      omega
    · show st2.start = st.start
      rw [hstart2, hst1]
      exact (string_loop_state src _ _).2

set_option maxHeartbeats 1600000 in
theorem scan_token_body_state {src : List Char} {c : Char} {st st' : SState}
    (h : scan_token_body src c st = .ok st') :
    st.current ≤ st'.current ∧ st'.start = st.start := by
  unfold scan_token_body at h
  by_cases h1 : c = '('
  · rw [if_pos h1] at h; injection h with h; subst h; exact ⟨le_rfl, rfl⟩
  rw [if_neg h1] at h
  by_cases h2 : c = ')'
  · rw [if_pos h2] at h; injection h with h; subst h; exact ⟨le_rfl, rfl⟩
  rw [if_neg h2] at h
  by_cases h3 : c = '{'
  · rw [if_pos h3] at h; injection h with h; subst h; exact ⟨le_rfl, rfl⟩
  rw [if_neg h3] at h
  by_cases h4 : c = '}'
  · rw [if_pos h4] at h; injection h with h; subst h; exact ⟨le_rfl, rfl⟩
  rw [if_neg h4] at h
  by_cases h5 : c = ','
  · rw [if_pos h5] at h; injection h with h; subst h; exact ⟨le_rfl, rfl⟩
  rw [if_neg h5] at h
  by_cases h6 : c = '.'
  · rw [if_pos h6] at h; injection h with h; subst h; exact ⟨le_rfl, rfl⟩
  rw [if_neg h6] at h
  by_cases h7 : c = '-'
  · rw [if_pos h7] at h; injection h with h; subst h; exact ⟨le_rfl, rfl⟩
  rw [if_neg h7] at h
  by_cases h8 : c = '+'
  · rw [if_pos h8] at h; injection h with h; subst h; exact ⟨le_rfl, rfl⟩
  rw [if_neg h8] at h
  by_cases h9 : c = ';'
  · rw [if_pos h9] at h; injection h with h; subst h; exact ⟨le_rfl, rfl⟩
  rw [if_neg h9] at h
  by_cases h10 : c = '*'
  · rw [if_pos h10] at h; injection h with h; subst h; exact ⟨le_rfl, rfl⟩
  rw [if_neg h10] at h
  by_cases h11 : c = '!'
  · rw [if_pos h11] at h; injection h with h; subst h
    exact ⟨(matchC_state src '=' st).1, (matchC_state src '=' st).2⟩
  rw [if_neg h11] at h
  by_cases h12 : c = '='
  · rw [if_pos h12] at h; injection h with h; subst h
    exact ⟨(matchC_state src '=' st).1, (matchC_state src '=' st).2⟩
  rw [if_neg h12] at h
  by_cases h13 : c = '<'
  · rw [if_pos h13] at h; injection h with h; subst h
    exact ⟨(matchC_state src '=' st).1, (matchC_state src '=' st).2⟩
  rw [if_neg h13] at h
  by_cases h14 : c = '>'
  · rw [if_pos h14] at h; injection h with h; subst h
    exact ⟨(matchC_state src '=' st).1, (matchC_state src '=' st).2⟩
  rw [if_neg h14] at h
  by_cases h15 : c = '/'
  · rw [if_pos h15] at h
    dsimp only at h
    split at h
    · injection h with h; subst h
      refine ⟨le_trans (matchC_state src '/' st).1 (comment_loop_state src _ _).1, ?_⟩
      rw [(comment_loop_state src _ _).2]
      exact (matchC_state src '/' st).2
    · injection h with h; subst h
      exact ⟨(matchC_state src '/' st).1, (matchC_state src '/' st).2⟩
  rw [if_neg h15] at h
  by_cases h16 : (decide (c = ' ') || decide (c = '\x0d') || decide (c = '\t')) = true
  · rw [if_pos h16] at h; injection h with h; subst h; exact ⟨le_rfl, rfl⟩
  rw [if_neg h16] at h
  by_cases h17 : c = '\n'
  · rw [if_pos h17] at h; injection h with h; subst h; exact ⟨le_rfl, rfl⟩
  rw [if_neg h17] at h
  by_cases h18 : c = '"'
  · rw [if_pos h18] at h
    exact tokenize_string_ok_state h
  rw [if_neg h18] at h
  by_cases h19 : c.isDigit = true
  · rw [if_pos h19] at h; injection h with h; subst h
    exact tokenize_number_state src st
  rw [if_neg h19] at h
  by_cases h20 : (c.isAlpha || decide (c = '_')) = true
  · rw [if_pos h20] at h; injection h with h; subst h
    exact tokenize_identifier_state src st
  rw [if_neg h20] at h
  injection h with h; subst h
  exact ⟨le_rfl, rfl⟩

theorem scan_token_ok_state {src : List Char} {st st' : SState}
    (h : scan_token src st = .ok st') :
    st.current < st'.current ∧ st'.start = st.start := by
  unfold scan_token at h
  cases hadv : advance src st with
  | error e =>
    rw [hadv] at h
    cases h
  | ok p =>
    obtain ⟨c, st1⟩ := p
    rw [hadv] at h
    dsimp only [bind, Except.bind] at h
    obtain ⟨hst1, _⟩ := advance_ok hadv
    subst hst1
    have hb := scan_token_body_state h
    exact ⟨lt_of_lt_of_le (Nat.lt_succ_self _) hb.1, hb.2⟩

theorem scan_loop_no_fuelOut (src : List Char) :
    ∀ (f : Nat) (st : SState), src.length - st.current ≤ f →
      scan_loop src f st ≠ .fuelOut := by
  intro f
  induction f with
  | zero =>
    intro st hle
    rw [scan_loop]
    split
    case isTrue hlt => omega
    case isFalse hlt => exact fun hcon => by cases hcon
  | succ f ih =>
    intro st hle
    rw [scan_loop]
    split
    case isTrue hlt =>
      cases hs : scan_token src { st with start := st.current } with
      | ok st1 =>
        apply ih
        have hcur : st.current < st1.current := (scan_token_ok_state hs).1
        omega
      | error e => exact fun hcon => by cases hcon
    case isFalse hlt => exact fun hcon => by cases hcon

theorem scan_loop_done (src : List Char) :
    ∀ (f : Nat) (st st' : SState), scan_loop src f st = .done st' →
      src.length ≤ st'.current ∧
        (st' = st ∨ (st'.start < st'.current ∧ st'.start < src.length)) := by
  intro f
  induction f with
  | zero =>
    intro st st' h
    rw [scan_loop] at h
    split at h
    case isTrue hlt => cases h
    case isFalse hlt =>
      injection h with h
      subst h
      exact ⟨by omega, Or.inl rfl⟩
  | succ f ih =>
    intro st st' h
    rw [scan_loop] at h
    split at h
    case isTrue hlt =>
      cases hs : scan_token src { st with start := st.current } with
      | ok st1 =>
        rw [hs] at h
        obtain ⟨hlen, hcase⟩ := ih st1 st' h
        refine ⟨hlen, Or.inr ?_⟩
        have hcur : st.current < st1.current := (scan_token_ok_state hs).1
        have hstart : st1.start = st.current := (scan_token_ok_state hs).2
        rcases hcase with rfl | hp
        · exact ⟨by omega, by omega⟩
        · exact hp
      | error e => rw [hs] at h; cases h
    case isFalse hlt =>
      injection h with h
      subst h
      exact ⟨by omega, Or.inl rfl⟩

theorem slice_ne_empty {src : List Char} {a b : Nat} (hab : a < b) (ha : a < src.length) :
    slice src a b ≠ "" := by
  unfold slice
  intro hcon
  have hdata : (src.drop a).take (b - a) = [] := congrArg String.data hcon
  have hlen := congrArg List.length hdata
  rw [List.length_take, List.length_drop] at hlen
  simp only [List.length_nil] at hlen
  omega

theorem scan_tokens_no_fuelOut (source : String) : scan_tokens source ≠ .fuelOut := by
  unfold scan_tokens
  dsimp only
  cases hloop : scan_loop source.toList (source.toList.length + 1) init with
  | done st => exact fun hcon => by cases hcon
  | raised st => exact fun hcon => by cases hcon
  | fuelOut =>
    exact absurd hloop (scan_loop_no_fuelOut source.toList _ init (by omega))

end Scanner

/-! ## Parser lemmas: cursor bounds, fuel adequacy and tree shapes -/

namespace Parser

theorem peekT_lt {ts : List Token} {i : Nat} (hi : i < ts.length) :
    peekT ts i = some (ts.get ⟨i, hi⟩) :=
  List.get?_eq_get hi

/-- In an EOF-terminated list, a position holding a non-EOF token is not
the last one. -/
theorem type_ne_eof_lt {ts : List Token} (hT : eof_terminated ts) {i : Nat}
    (hi : i < ts.length) (hne : (ts.get ⟨i, hi⟩).token_type ≠ .EOF) :
    i + 1 < ts.length := by
  by_contra hcon
  obtain ⟨t, hlast, heof⟩ := hT
  rw [List.getLast?_eq_getElem?] at hlast
  have hieq : i = ts.length - 1 := by omega
  have : ts.get? i = some t := by
    rw [hieq]
    simpa using hlast
  rw [List.get?_eq_get hi] at this
  injection this with this
  exact hne (this ▸ heof)

/-- `Parser.check` returning `True` means the peeked token has the sought
kind and is not `EOF`. -/
theorem checkT_true {ts : List Token} {tt : TokenType} {i : Nat}
    (h : checkT ts tt i = some true) :
    ∃ hi : i < ts.length, (ts.get ⟨i, hi⟩).token_type = tt ∧
      (ts.get ⟨i, hi⟩).token_type ≠ .EOF := by
  unfold checkT is_at_endT at h
  cases hp : peekT ts i with
  | none => rw [hp] at h; cases h
  | some t =>
    rw [hp] at h
    dsimp only [Option.map] at h
    cases hd : decide (t.token_type = .EOF) with
    | true => rw [hd] at h; cases h
    | false =>
      rw [hd] at h
      dsimp only at h
      injection h with h
      have hi : i < ts.length := by
        by_contra hle
        rw [peekT, List.get?_eq_none.mpr (Nat.le_of_not_lt hle)] at hp
        cases hp
      have hpt : ts.get ⟨i, hi⟩ = t := by
        have h2 : ts.get? i = some t := hp
        rw [List.get?_eq_get hi] at h2
        exact Option.some.inj h2
      exact ⟨hi, by rw [hpt]; exact of_decide_eq_true h,
        by rw [hpt]; exact of_decide_eq_false hd⟩

/-- `Parser.advance` at an in-range, non-final position: consume the
peeked token and return it. -/
theorem advanceT_not_eof {ts : List Token} {i : Nat} (hi : i < ts.length)
    (hne : (ts.get ⟨i, hi⟩).token_type ≠ .EOF) :
    advanceT ts i = some (ts.get ⟨i, hi⟩, i + 1) := by
  unfold advanceT is_at_endT previousT
  rw [peekT_lt hi]
  simp only [Option.map, decide_eq_false hne, Bool.false_eq_true, if_false,
    Nat.succ_ne_zero, Nat.add_sub_cancel, List.get?_eq_get hi]

/-- A successful `match` consumed exactly the peeked token, whose kind is
among the sought kinds; `previous()` then returns that token. -/
theorem matchT_true_prev {ts : List Token} {tts : List TokenType} {i j : Nat}
    (h : matchT ts tts i = some (true, j)) :
    j = i + 1 ∧ i < ts.length ∧
      ∃ tok, previousT ts j = some tok ∧ tok.token_type ∈ tts ∧
        tok.token_type ≠ .EOF ∧ ts.get? i = some tok := by
  induction tts with
  | nil =>
    unfold matchT at h
    injection h with h
    injection h with h1 h2
    cases h1
  | cons tt rest ih =>
    unfold matchT at h
    cases hc : checkT ts tt i with
    | none => rw [hc] at h; cases h
    | some b =>
      rw [hc] at h
      cases b with
      | false => exact (ih h).imp id (fun p => p.imp id
          (fun q => q.imp (fun tok r => ⟨r.1, List.mem_cons_of_mem _ r.2.1, r.2.2⟩)))
      | true =>
        obtain ⟨hi, htt, hne⟩ := checkT_true hc
        rw [advanceT_not_eof hi hne] at h
        dsimp only [Option.map] at h
        injection h with h
        injection h with h1 h2
        subst h2
        refine ⟨rfl, hi, ts.get ⟨i, hi⟩, ?_, ?_, hne, List.get?_eq_get hi⟩
        · unfold previousT
          rw [if_neg (Nat.succ_ne_zero i)]
          simp only [Nat.add_sub_cancel]
          exact List.get?_eq_get hi
        · exact htt ▸ List.mem_cons_self tt rest

/-- A failed `match` leaves the cursor where it was. -/
theorem matchT_false {ts : List Token} {tts : List TokenType} {i j : Nat}
    (h : matchT ts tts i = some (false, j)) : j = i := by
  induction tts with
  | nil =>
    unfold matchT at h
    injection h with h
    injection h with h1 h2
    exact h2.symm
  | cons tt rest ih =>
    unfold matchT at h
    cases hc : checkT ts tt i with
    | none => rw [hc] at h; cases h
    | some b =>
      rw [hc] at h
      cases b with
      | false => exact ih h
      | true =>
        cases ha : advanceT ts i with
        | none => rw [ha] at h; cases h
        | some p =>
          rw [ha] at h
          dsimp only [Option.map] at h
          injection h with h
          injection h with h1 h2
          cases h1

/-- With the cursor in range, `match` cannot raise, and lands either in
place (no hit) or one past a non-final token (hit). -/
theorem matchT_spec {ts : List Token} (hT : eof_terminated ts) {i : Nat}
    (hi : i < ts.length) (tts : List TokenType) :
    ∃ m j, matchT ts tts i = some (m, j) ∧
      ((m = false ∧ j = i) ∨ (m = true ∧ j = i + 1 ∧ i + 1 < ts.length)) := by
  induction tts with
  | nil => exact ⟨false, i, rfl, Or.inl ⟨rfl, rfl⟩⟩
  | cons tt rest ih =>
    have hck : ∃ b, checkT ts tt i = some b := by
      unfold checkT is_at_endT
      rw [peekT_lt hi]
      dsimp only [Option.map]
      cases hd : decide ((ts.get ⟨i, hi⟩).token_type = .EOF) with
      | true => exact ⟨false, rfl⟩
      | false => exact ⟨_, rfl⟩
    obtain ⟨b, hb⟩ := hck
    cases b with
    | false =>
      obtain ⟨m, j, hmt, hcase⟩ := ih
      refine ⟨m, j, ?_, hcase⟩
      unfold matchT
      rw [hb]
      exact hmt
    | true =>
      obtain ⟨hi2, htt, hne⟩ := checkT_true hb
      have hne' : (ts.get ⟨i, hi⟩).token_type ≠ .EOF := hne
      refine ⟨true, i + 1, ?_, Or.inr ⟨rfl, rfl, type_ne_eof_lt hT hi hne'⟩⟩
      unfold matchT
      rw [hb, advanceT_not_eof hi hne']
      rfl

/-- `Parser.consume` never runs out of fuel (it uses none). -/
theorem consumeT_ne_fuelOut (ts : List Token) (tt : TokenType) (i : Nat) :
    consumeT ts tt i ≠ .fuelOut := by
  unfold consumeT
  cases hc : checkT ts tt i with
  | none => exact fun hcon => by cases hcon
  | some b =>
    cases b with
    | false =>
      cases hp : peekT ts i with
      | none => exact fun hcon => by cases hcon
      | some t => exact fun hcon => by cases hcon
    | true =>
      cases ha : advanceT ts i with
      | none => exact fun hcon => by cases hcon
      | some p => exact fun hcon => by cases hcon

/-- With the cursor in range of an EOF-terminated list, `consume` cannot
raise `IndexError`, and on success lands one past a non-final token. -/
theorem consumeT_spec {ts : List Token} (hT : eof_terminated ts) {i : Nat}
    (hi : i < ts.length) (tt : TokenType) :
    consumeT ts tt i ≠ .indexError ∧
      ∀ t j, consumeT ts tt i = .ok t j → j = i + 1 ∧ j < ts.length := by
  unfold consumeT
  cases hc : checkT ts tt i with
  | none =>
    exfalso
    unfold checkT is_at_endT at hc
    rw [peekT_lt hi] at hc
    dsimp only [Option.map] at hc
    cases hd : decide ((ts.get ⟨i, hi⟩).token_type = .EOF) with
    | true => rw [hd] at hc; cases hc
    | false => rw [hd] at hc; cases hc
  | some b =>
    cases b with
    | false =>
      rw [peekT_lt hi]
      exact ⟨fun hcon => (by cases hcon), fun t j hcon => (by cases hcon)⟩
    | true =>
      obtain ⟨hi2, htt, hne⟩ := checkT_true hc
      have hne' : (ts.get ⟨i, hi⟩).token_type ≠ .EOF := hne
      rw [advanceT_not_eof hi hne']
      refine ⟨fun hcon => (by cases hcon), fun t j h => ?_⟩
      injection h with h1 h2
      subst h2
      exact ⟨rfl, type_ne_eof_lt hT hi hne'⟩

theorem previousT_succ (ts : List Token) (i : Nat) : previousT ts (i + 1) = ts.get? i := by
  unfold previousT
  rw [if_neg (Nat.succ_ne_zero i)]
  simp only [Nat.add_sub_cancel]

/-- Fuel adequacy, cursor monotonicity and in-bounds access for every
production of the recursive-descent parser: on an EOF-terminated token
list, with the cursor in range and fuel at least `8 * (tokens left) +
ruleBudget r`, the production neither runs out of fuel nor raises
`IndexError`, and a successful parse moves the cursor forward (strictly,
except for a loop that runs zero iterations) while keeping it in range. -/
theorem runRule_fuel {ts : List Token} (hT : eof_terminated ts) :
    ∀ (f : Nat) (r : Rule) (i : Nat), i < ts.length →
      8 * (ts.length - i) + ruleBudget r ≤ f →
      runRule ts f r i ≠ .fuelOut ∧ runRule ts f r i ≠ .indexError ∧
        ∀ e j, runRule ts f r i = .ok e j →
          i ≤ j ∧ j < ts.length ∧ (ruleStrict r = true → i < j) := by
  intro f
  induction f with
  | zero =>
    intro r i hi hf
    exact absurd hf (by omega)
  | succ f ih =>
    intro r i hi hf
    rw [runRule.eq_def]
    cases r with
    | expr =>
      simp only [ruleBudget] at hf
      dsimp only
      have h := ih .eq i hi (by simp only [ruleBudget]; omega)
      refine ⟨h.1, h.2.1, fun e j hok => ?_⟩
      obtain ⟨g1, g2, g3⟩ := h.2.2 e j hok
      exact ⟨g1, g2, fun _ => g3 rfl⟩
    | eq =>
      simp only [ruleBudget] at hf
      dsimp only
      have hsub := ih .comp i hi (by simp only [ruleBudget]; omega)
      cases hc : runRule ts f .comp i with
      | ok e1 i1 =>
        obtain ⟨h1, h2, h3⟩ := hsub.2.2 e1 i1 hc
        have hlt : i < i1 := h3 rfl
        have hloop := ih (.eqLoop e1) i1 h2 (by simp only [ruleBudget]; omega)
        refine ⟨hloop.1, hloop.2.1, fun e j hok => ?_⟩
        obtain ⟨g1, g2, g3⟩ := hloop.2.2 e j hok
        exact ⟨by omega, g2, fun _ => by omega⟩
      | parseError =>
        exact ⟨fun hcon => (by cases hcon), fun hcon => (by cases hcon),
          fun e j hok => (by cases hok)⟩
      | indexError => exact absurd hc hsub.2.1
      | fuelOut => exact absurd hc hsub.1
    | comp =>
      simp only [ruleBudget] at hf
      dsimp only
      have hsub := ih .term i hi (by simp only [ruleBudget]; omega)
      cases hc : runRule ts f .term i with
      | ok e1 i1 =>
        obtain ⟨h1, h2, h3⟩ := hsub.2.2 e1 i1 hc
        have hlt : i < i1 := h3 rfl
        have hloop := ih (.compLoop e1) i1 h2 (by simp only [ruleBudget]; omega)
        refine ⟨hloop.1, hloop.2.1, fun e j hok => ?_⟩
        obtain ⟨g1, g2, g3⟩ := hloop.2.2 e j hok
        exact ⟨by omega, g2, fun _ => by omega⟩
      | parseError =>
        exact ⟨fun hcon => (by cases hcon), fun hcon => (by cases hcon),
          fun e j hok => (by cases hok)⟩
      | indexError => exact absurd hc hsub.2.1
      | fuelOut => exact absurd hc hsub.1
    | term =>
      simp only [ruleBudget] at hf
      dsimp only
      have hsub := ih .factor i hi (by simp only [ruleBudget]; omega)
      cases hc : runRule ts f .factor i with
      | ok e1 i1 =>
        obtain ⟨h1, h2, h3⟩ := hsub.2.2 e1 i1 hc
        have hlt : i < i1 := h3 rfl
        have hloop := ih (.termLoop e1) i1 h2 (by simp only [ruleBudget]; omega)
        refine ⟨hloop.1, hloop.2.1, fun e j hok => ?_⟩
        obtain ⟨g1, g2, g3⟩ := hloop.2.2 e j hok
        exact ⟨by omega, g2, fun _ => by omega⟩
      | parseError =>
        exact ⟨fun hcon => (by cases hcon), fun hcon => (by cases hcon),
          fun e j hok => (by cases hok)⟩
      | indexError => exact absurd hc hsub.2.1
      | fuelOut => exact absurd hc hsub.1
    | factor =>
      simp only [ruleBudget] at hf
      dsimp only
      have hsub := ih .unary i hi (by simp only [ruleBudget]; omega)
      cases hc : runRule ts f .unary i with
      | ok e1 i1 =>
        obtain ⟨h1, h2, h3⟩ := hsub.2.2 e1 i1 hc
        have hlt : i < i1 := h3 rfl
        have hloop := ih (.factorLoop e1) i1 h2 (by simp only [ruleBudget]; omega)
        refine ⟨hloop.1, hloop.2.1, fun e j hok => ?_⟩
        obtain ⟨g1, g2, g3⟩ := hloop.2.2 e j hok
        exact ⟨by omega, g2, fun _ => by omega⟩
      | parseError =>
        exact ⟨fun hcon => (by cases hcon), fun hcon => (by cases hcon),
          fun e j hok => (by cases hok)⟩
      | indexError => exact absurd hc hsub.2.1
      | fuelOut => exact absurd hc hsub.1
    | eqLoop acc =>
      simp only [ruleBudget] at hf
      dsimp only
      obtain ⟨m, j0, hmt, hcase⟩ := matchT_spec hT hi [TokenType.BANG_EQUAL, TokenType.EQUAL_EQUAL]
      rw [hmt]
      rcases hcase with ⟨rfl, hj0⟩ | ⟨rfl, rfl, hlt1⟩
      · refine ⟨fun hcon => (by cases hcon), fun hcon => (by cases hcon), fun e j hok => ?_⟩
        injection hok with hoke hokj
        subst hokj
        exact ⟨le_rfl, hi, fun hs => (by cases hs)⟩
      · dsimp only
        rw [previousT_succ, List.get?_eq_get hi]
        have hsub := ih .comp (i + 1) hlt1 (by simp only [ruleBudget]; omega)
        cases hc : runRule ts f .comp (i + 1) with
        | ok e1 i1 =>
          obtain ⟨h1, h2, h3⟩ := hsub.2.2 e1 i1 hc
          have hlt2 : i + 1 < i1 := h3 rfl
          have hloop := ih (.eqLoop (.binary acc (ts.get ⟨i, hi⟩) e1)) i1 h2
            (by simp only [ruleBudget]; omega)
          refine ⟨hloop.1, hloop.2.1, fun e j hok => ?_⟩
          obtain ⟨g1, g2, g3⟩ := hloop.2.2 e j hok
          exact ⟨by omega, g2, fun _ => by omega⟩
        | parseError =>
          exact ⟨fun hcon => (by cases hcon), fun hcon => (by cases hcon),
            fun e j hok => (by cases hok)⟩
        | indexError => exact absurd hc hsub.2.1
        | fuelOut => exact absurd hc hsub.1
    | compLoop acc =>
      simp only [ruleBudget] at hf
      dsimp only
      obtain ⟨m, j0, hmt, hcase⟩ := matchT_spec hT hi
        [TokenType.GREATER, TokenType.GREATER_EQUAL, TokenType.LESS, TokenType.LESS_EQUAL]
      rw [hmt]
      rcases hcase with ⟨rfl, hj0⟩ | ⟨rfl, rfl, hlt1⟩
      · refine ⟨fun hcon => (by cases hcon), fun hcon => (by cases hcon), fun e j hok => ?_⟩
        injection hok with hoke hokj
        subst hokj
        exact ⟨le_rfl, hi, fun hs => (by cases hs)⟩
      · dsimp only
        rw [previousT_succ, List.get?_eq_get hi]
        have hsub := ih .term (i + 1) hlt1 (by simp only [ruleBudget]; omega)
        cases hc : runRule ts f .term (i + 1) with
        | ok e1 i1 =>
          obtain ⟨h1, h2, h3⟩ := hsub.2.2 e1 i1 hc
          have hlt2 : i + 1 < i1 := h3 rfl
          have hloop := ih (.compLoop (.binary acc (ts.get ⟨i, hi⟩) e1)) i1 h2
            (by simp only [ruleBudget]; omega)
          refine ⟨hloop.1, hloop.2.1, fun e j hok => ?_⟩
          obtain ⟨g1, g2, g3⟩ := hloop.2.2 e j hok
          exact ⟨by omega, g2, fun _ => by omega⟩
        | parseError =>
          exact ⟨fun hcon => (by cases hcon), fun hcon => (by cases hcon),
            fun e j hok => (by cases hok)⟩
        | indexError => exact absurd hc hsub.2.1
        | fuelOut => exact absurd hc hsub.1
    | termLoop acc =>
      simp only [ruleBudget] at hf
      dsimp only
      obtain ⟨m, j0, hmt, hcase⟩ := matchT_spec hT hi [TokenType.MINUS, TokenType.PLUS]
      rw [hmt]
      rcases hcase with ⟨rfl, hj0⟩ | ⟨rfl, rfl, hlt1⟩
      · refine ⟨fun hcon => (by cases hcon), fun hcon => (by cases hcon), fun e j hok => ?_⟩
        injection hok with hoke hokj
        subst hokj
        exact ⟨le_rfl, hi, fun hs => (by cases hs)⟩
      · dsimp only
        rw [previousT_succ, List.get?_eq_get hi]
        have hsub := ih .factor (i + 1) hlt1 (by simp only [ruleBudget]; omega)
        cases hc : runRule ts f .factor (i + 1) with
        | ok e1 i1 =>
          obtain ⟨h1, h2, h3⟩ := hsub.2.2 e1 i1 hc
          have hlt2 : i + 1 < i1 := h3 rfl
          have hloop := ih (.termLoop (.binary acc (ts.get ⟨i, hi⟩) e1)) i1 h2
            (by simp only [ruleBudget]; omega)
          refine ⟨hloop.1, hloop.2.1, fun e j hok => ?_⟩
          obtain ⟨g1, g2, g3⟩ := hloop.2.2 e j hok
          exact ⟨by omega, g2, fun _ => by omega⟩
        | parseError =>
          exact ⟨fun hcon => (by cases hcon), fun hcon => (by cases hcon),
            fun e j hok => (by cases hok)⟩
        | indexError => exact absurd hc hsub.2.1
        | fuelOut => exact absurd hc hsub.1
    | factorLoop acc =>
      simp only [ruleBudget] at hf
      dsimp only
      obtain ⟨m, j0, hmt, hcase⟩ := matchT_spec hT hi [TokenType.SLASH, TokenType.STAR]
      rw [hmt]
      rcases hcase with ⟨rfl, hj0⟩ | ⟨rfl, rfl, hlt1⟩
      · refine ⟨fun hcon => (by cases hcon), fun hcon => (by cases hcon), fun e j hok => ?_⟩
        injection hok with hoke hokj
        subst hokj
        exact ⟨le_rfl, hi, fun hs => (by cases hs)⟩
      · dsimp only
        rw [previousT_succ, List.get?_eq_get hi]
        have hsub := ih .unary (i + 1) hlt1 (by simp only [ruleBudget]; omega)
        cases hc : runRule ts f .unary (i + 1) with
        | ok e1 i1 =>
          obtain ⟨h1, h2, h3⟩ := hsub.2.2 e1 i1 hc
          have hlt2 : i + 1 < i1 := h3 rfl
          have hloop := ih (.factorLoop (.binary acc (ts.get ⟨i, hi⟩) e1)) i1 h2
            (by simp only [ruleBudget]; omega)
          refine ⟨hloop.1, hloop.2.1, fun e j hok => ?_⟩
          obtain ⟨g1, g2, g3⟩ := hloop.2.2 e j hok
          exact ⟨by omega, g2, fun _ => by omega⟩
        | parseError =>
          exact ⟨fun hcon => (by cases hcon), fun hcon => (by cases hcon),
            fun e j hok => (by cases hok)⟩
        | indexError => exact absurd hc hsub.2.1
        | fuelOut => exact absurd hc hsub.1
    | unary =>
      simp only [ruleBudget] at hf
      dsimp only
      obtain ⟨m, j0, hmt, hcase⟩ := matchT_spec hT hi [TokenType.BANG, TokenType.MINUS]
      rw [hmt]
      rcases hcase with ⟨rfl, hj0⟩ | ⟨rfl, rfl, hlt1⟩
      · have hsub := ih .primary i hi (by simp only [ruleBudget]; omega)
        refine ⟨hsub.1, hsub.2.1, fun e j hok => ?_⟩
        obtain ⟨g1, g2, g3⟩ := hsub.2.2 e j hok
        exact ⟨g1, g2, fun _ => g3 rfl⟩
      · dsimp only
        rw [previousT_succ, List.get?_eq_get hi]
        have hsub := ih .unary (i + 1) hlt1 (by simp only [ruleBudget]; omega)
        cases hc : runRule ts f .unary (i + 1) with
        | ok e1 i1 =>
          obtain ⟨h1, h2, h3⟩ := hsub.2.2 e1 i1 hc
          refine ⟨fun hcon => (by cases hcon), fun hcon => (by cases hcon), fun e j hok => ?_⟩
          injection hok with hoke hokj
          subst hokj
          exact ⟨by omega, h2, fun _ => by omega⟩
        | parseError =>
          exact ⟨fun hcon => (by cases hcon), fun hcon => (by cases hcon),
            fun e j hok => (by cases hok)⟩
        | indexError => exact absurd hc hsub.2.1
        | fuelOut => exact absurd hc hsub.1
    | primary =>
      simp only [ruleBudget] at hf
      dsimp only
      obtain ⟨m1, j1, hm1, hc1⟩ := matchT_spec hT hi [TokenType.FALSE]
      rw [hm1]
      rcases hc1 with ⟨rfl, hj1⟩ | ⟨rfl, rfl, hlt1⟩
      · obtain ⟨m2, j2, hm2, hc2⟩ := matchT_spec hT hi [TokenType.TRUE]
        rw [hm2]
        rcases hc2 with ⟨rfl, hj2⟩ | ⟨rfl, rfl, hlt2⟩
        · obtain ⟨m3, j3, hm3, hc3⟩ := matchT_spec hT hi [TokenType.NIL]
          rw [hm3]
          rcases hc3 with ⟨rfl, hj3⟩ | ⟨rfl, rfl, hlt3⟩
          · obtain ⟨m4, j4, hm4, hc4⟩ := matchT_spec hT hi [TokenType.NUMBER, TokenType.STRING]
            rw [hm4]
            rcases hc4 with ⟨rfl, hj4⟩ | ⟨rfl, rfl, hlt4⟩
            · obtain ⟨m5, j5, hm5, hc5⟩ := matchT_spec hT hi [TokenType.LEFT_PAREN]
              rw [hm5]
              rcases hc5 with ⟨rfl, hj5⟩ | ⟨rfl, rfl, hlt5⟩
              · rw [peekT_lt hi]
                exact ⟨fun hcon => (by cases hcon), fun hcon => (by cases hcon),
                  fun e j hok => (by cases hok)⟩
              · dsimp only
                have hsub := ih .expr (i + 1) hlt5 (by simp only [ruleBudget]; omega)
                cases hc : runRule ts f .expr (i + 1) with
                | ok e1 i1 =>
                  dsimp only
                  obtain ⟨h1, h2, h3⟩ := hsub.2.2 e1 i1 hc
                  have hcons := consumeT_spec hT h2 TokenType.RIGHT_PAREN
                  cases hcc : consumeT ts .RIGHT_PAREN i1 with
                  | ok t jj =>
                    obtain ⟨hjj, hjn⟩ := hcons.2 t jj hcc
                    refine ⟨fun hcon => (by cases hcon), fun hcon => (by cases hcon),
                      fun e j hok => ?_⟩
                    injection hok with hoke hokj
                    subst hokj
                    have hlt6 : i + 1 < i1 := h3 rfl
                    exact ⟨by omega, hjn, fun _ => by omega⟩
                  | parseError =>
                    exact ⟨fun hcon => (by cases hcon), fun hcon => (by cases hcon),
                      fun e j hok => (by cases hok)⟩
                  | indexError => exact absurd hcc hcons.1
                  | fuelOut => exact absurd hcc (consumeT_ne_fuelOut ts _ i1)
                | parseError =>
                  exact ⟨fun hcon => (by cases hcon), fun hcon => (by cases hcon),
                    fun e j hok => (by cases hok)⟩
                | indexError => exact absurd hc hsub.2.1
                | fuelOut => exact absurd hc hsub.1
            · dsimp only
              rw [previousT_succ, List.get?_eq_get hi]
              refine ⟨fun hcon => (by cases hcon), fun hcon => (by cases hcon),
                fun e j hok => ?_⟩
              injection hok with hoke hokj
              subst hokj
              exact ⟨Nat.le_succ i, hlt4, fun _ => Nat.lt_succ_self i⟩
          · refine ⟨fun hcon => (by cases hcon), fun hcon => (by cases hcon),
              fun e j hok => ?_⟩
            injection hok with hoke hokj
            subst hokj
            exact ⟨Nat.le_succ i, hlt3, fun _ => Nat.lt_succ_self i⟩
        · refine ⟨fun hcon => (by cases hcon), fun hcon => (by cases hcon),
            fun e j hok => ?_⟩
          injection hok with hoke hokj
          subst hokj
          exact ⟨Nat.le_succ i, hlt2, fun _ => Nat.lt_succ_self i⟩
      · refine ⟨fun hcon => (by cases hcon), fun hcon => (by cases hcon),
          fun e j hok => ?_⟩
        injection hok with hoke hokj
        subst hokj
        exact ⟨Nat.le_succ i, hlt1, fun _ => Nat.lt_succ_self i⟩

/-- Shape soundness of the recursive-descent parser: whatever tree a
production returns lies in that production's precedence stratum (given
that a loop's accumulator already does). In particular every tree
`expression()` returns is consistent with the stratified grammar. -/
theorem runRule_shape (ts : List Token) :
    ∀ (f : Nat) (r : Rule) (i : Nat), ruleAccOk r →
      ∀ e j, runRule ts f r i = .ok e j → ruleStratum r e := by
  intro f
  induction f with
  | zero =>
    intro r i hacc e j hok
    cases hok
  | succ f ih =>
    intro r i hacc e j hok
    rw [runRule.eq_def] at hok
    cases r with
    | expr => exact ih .eq i trivial e j hok
    | eq =>
      dsimp only at hok
      cases hc : runRule ts f .comp i with
      | ok e1 i1 =>
        rw [hc] at hok
        dsimp only at hok
        have h1 := ih .comp i trivial e1 i1 hc
        exact ih (.eqLoop e1) i1 (IsEqualityE.comp e1 h1) e j hok
      | parseError => rw [hc] at hok; cases hok
      | indexError => rw [hc] at hok; cases hok
      | fuelOut => rw [hc] at hok; cases hok
    | comp =>
      dsimp only at hok
      cases hc : runRule ts f .term i with
      | ok e1 i1 =>
        rw [hc] at hok
        dsimp only at hok
        have h1 := ih .term i trivial e1 i1 hc
        exact ih (.compLoop e1) i1 (IsComparisonE.term e1 h1) e j hok
      | parseError => rw [hc] at hok; cases hok
      | indexError => rw [hc] at hok; cases hok
      | fuelOut => rw [hc] at hok; cases hok
    | term =>
      dsimp only at hok
      cases hc : runRule ts f .factor i with
      | ok e1 i1 =>
        rw [hc] at hok
        dsimp only at hok
        have h1 := ih .factor i trivial e1 i1 hc
        exact ih (.termLoop e1) i1 (IsTermE.factor e1 h1) e j hok
      | parseError => rw [hc] at hok; cases hok
      | indexError => rw [hc] at hok; cases hok
      | fuelOut => rw [hc] at hok; cases hok
    | factor =>
      dsimp only at hok
      cases hc : runRule ts f .unary i with
      | ok e1 i1 =>
        rw [hc] at hok
        dsimp only at hok
        have h1 := ih .unary i trivial e1 i1 hc
        exact ih (.factorLoop e1) i1 (IsFactorE.unary e1 h1) e j hok
      | parseError => rw [hc] at hok; cases hok
      | indexError => rw [hc] at hok; cases hok
      | fuelOut => rw [hc] at hok; cases hok
    | eqLoop acc =>
      dsimp only at hok
      cases hmt : matchT ts [TokenType.BANG_EQUAL, TokenType.EQUAL_EQUAL] i with
      | none => rw [hmt] at hok; cases hok
      | some p =>
        obtain ⟨m, j0⟩ := p
        rw [hmt] at hok
        cases m with
        | false =>
          dsimp only at hok
          injection hok with h1 h2
          subst h1
          exact hacc
        | true =>
          dsimp only at hok
          obtain ⟨hj0eq, hi0, tok, hprev, hmem, hneof, hget⟩ := matchT_true_prev hmt
          cases hp : previousT ts j0 with
          | none => rw [hp] at hok; cases hok
          | some op =>
            rw [hp] at hok
            dsimp only at hok
            rw [hprev] at hp
            injection hp with hp
            subst hp
            cases hc : runRule ts f .comp j0 with
            | ok r1 i1 =>
              rw [hc] at hok
              dsimp only at hok
              have hr1 := ih .comp j0 trivial r1 i1 hc
              have hop : tok.token_type = .BANG_EQUAL ∨ tok.token_type = .EQUAL_EQUAL := by
                simpa using hmem
              exact ih (.eqLoop (.binary acc tok r1)) i1
                (IsEqualityE.bin acc tok r1 hacc hop hr1) e j hok
            | parseError => rw [hc] at hok; cases hok
            | indexError => rw [hc] at hok; cases hok
            | fuelOut => rw [hc] at hok; cases hok
    | compLoop acc =>
      dsimp only at hok
      cases hmt : matchT ts
          [TokenType.GREATER, TokenType.GREATER_EQUAL, TokenType.LESS, TokenType.LESS_EQUAL] i with
      | none => rw [hmt] at hok; cases hok
      | some p =>
        obtain ⟨m, j0⟩ := p
        rw [hmt] at hok
        cases m with
        | false =>
          dsimp only at hok
          injection hok with h1 h2
          subst h1
          exact hacc
        | true =>
          dsimp only at hok
          obtain ⟨hj0eq, hi0, tok, hprev, hmem, hneof, hget⟩ := matchT_true_prev hmt
          cases hp : previousT ts j0 with
          | none => rw [hp] at hok; cases hok
          | some op =>
            rw [hp] at hok
            dsimp only at hok
            rw [hprev] at hp
            injection hp with hp
            subst hp
            cases hc : runRule ts f .term j0 with
            | ok r1 i1 =>
              rw [hc] at hok
              dsimp only at hok
              have hr1 := ih .term j0 trivial r1 i1 hc
              have hop : tok.token_type = .GREATER ∨ tok.token_type = .GREATER_EQUAL ∨
                  tok.token_type = .LESS ∨ tok.token_type = .LESS_EQUAL := by
                simpa using hmem
              exact ih (.compLoop (.binary acc tok r1)) i1
                (IsComparisonE.bin acc tok r1 hacc hop hr1) e j hok
            | parseError => rw [hc] at hok; cases hok
            | indexError => rw [hc] at hok; cases hok
            | fuelOut => rw [hc] at hok; cases hok
    | termLoop acc =>
      dsimp only at hok
      cases hmt : matchT ts [TokenType.MINUS, TokenType.PLUS] i with
      | none => rw [hmt] at hok; cases hok
      | some p =>
        obtain ⟨m, j0⟩ := p
        rw [hmt] at hok
        cases m with
        | false =>
          dsimp only at hok
          injection hok with h1 h2
          subst h1
          exact hacc
        | true =>
          dsimp only at hok
          obtain ⟨hj0eq, hi0, tok, hprev, hmem, hneof, hget⟩ := matchT_true_prev hmt
          cases hp : previousT ts j0 with
          | none => rw [hp] at hok; cases hok
          | some op =>
            rw [hp] at hok
            dsimp only at hok
            rw [hprev] at hp
            injection hp with hp
            subst hp
            cases hc : runRule ts f .factor j0 with
            | ok r1 i1 =>
              rw [hc] at hok
              dsimp only at hok
              have hr1 := ih .factor j0 trivial r1 i1 hc
              have hop : tok.token_type = .MINUS ∨ tok.token_type = .PLUS := by
                simpa using hmem
              exact ih (.termLoop (.binary acc tok r1)) i1
                (IsTermE.bin acc tok r1 hacc hop hr1) e j hok
            | parseError => rw [hc] at hok; cases hok
            | indexError => rw [hc] at hok; cases hok
            | fuelOut => rw [hc] at hok; cases hok
    | factorLoop acc =>
      dsimp only at hok
      cases hmt : matchT ts [TokenType.SLASH, TokenType.STAR] i with
      | none => rw [hmt] at hok; cases hok
      | some p =>
        obtain ⟨m, j0⟩ := p
        rw [hmt] at hok
        cases m with
        | false =>
          dsimp only at hok
          injection hok with h1 h2
          subst h1
          exact hacc
        | true =>
          dsimp only at hok
          obtain ⟨hj0eq, hi0, tok, hprev, hmem, hneof, hget⟩ := matchT_true_prev hmt
          cases hp : previousT ts j0 with
          | none => rw [hp] at hok; cases hok
          | some op =>
            rw [hp] at hok
            dsimp only at hok
            rw [hprev] at hp
            injection hp with hp
            subst hp
            cases hc : runRule ts f .unary j0 with
            | ok r1 i1 =>
              rw [hc] at hok
              dsimp only at hok
              have hr1 := ih .unary j0 trivial r1 i1 hc
              have hop : tok.token_type = .SLASH ∨ tok.token_type = .STAR := by
                simpa using hmem
              exact ih (.factorLoop (.binary acc tok r1)) i1
                (IsFactorE.bin acc tok r1 hacc hop hr1) e j hok
            | parseError => rw [hc] at hok; cases hok
            | indexError => rw [hc] at hok; cases hok
            | fuelOut => rw [hc] at hok; cases hok
    | unary =>
      dsimp only at hok
      cases hmt : matchT ts [TokenType.BANG, TokenType.MINUS] i with
      | none => rw [hmt] at hok; cases hok
      | some p =>
        obtain ⟨m, j0⟩ := p
        rw [hmt] at hok
        cases m with
        | false =>
          dsimp only at hok
          exact IsUnaryE.primary e (ih .primary i trivial e j hok)
        | true =>
          dsimp only at hok
          obtain ⟨hj0eq, hi0, tok, hprev, hmem, hneof, hget⟩ := matchT_true_prev hmt
          cases hp : previousT ts j0 with
          | none => rw [hp] at hok; cases hok
          | some op =>
            rw [hp] at hok
            dsimp only at hok
            rw [hprev] at hp
            injection hp with hp
            subst hp
            cases hc : runRule ts f .unary j0 with
            | ok r1 i1 =>
              rw [hc] at hok
              dsimp only at hok
              injection hok with h1 h2
              subst h1
              have hop : tok.token_type = .BANG ∨ tok.token_type = .MINUS := by
                simpa using hmem
              exact IsUnaryE.un tok r1 hop (ih .unary j0 trivial r1 i1 hc)
            | parseError => rw [hc] at hok; cases hok
            | indexError => rw [hc] at hok; cases hok
            | fuelOut => rw [hc] at hok; cases hok
    | primary =>
      dsimp only at hok
      cases hmt1 : matchT ts [TokenType.FALSE] i with
      | none => rw [hmt1] at hok; cases hok
      | some p1 =>
        obtain ⟨m1, j1⟩ := p1
        rw [hmt1] at hok
        cases m1 with
        | true =>
          dsimp only at hok
          injection hok with h1 h2
          subst h1
          exact IsPrimaryE.lit _
        | false =>
        dsimp only at hok
        cases hmt2 : matchT ts [TokenType.TRUE] i with
        | none => rw [hmt2] at hok; cases hok
        | some p2 =>
          obtain ⟨m2, j2⟩ := p2
          rw [hmt2] at hok
          cases m2 with
          | true =>
            dsimp only at hok
            injection hok with h1 h2
            subst h1
            exact IsPrimaryE.lit _
          | false =>
          dsimp only at hok
          cases hmt3 : matchT ts [TokenType.NIL] i with
          | none => rw [hmt3] at hok; cases hok
          | some p3 =>
            obtain ⟨m3, j3⟩ := p3
            rw [hmt3] at hok
            cases m3 with
            | true =>
              dsimp only at hok
              injection hok with h1 h2
              subst h1
              exact IsPrimaryE.lit _
            | false =>
            dsimp only at hok
            cases hmt4 : matchT ts [TokenType.NUMBER, TokenType.STRING] i with
            | none => rw [hmt4] at hok; cases hok
            | some p4 =>
              obtain ⟨m4, j4⟩ := p4
              rw [hmt4] at hok
              cases m4 with
              | true =>
                dsimp only at hok
                cases hp : previousT ts j4 with
                | none => rw [hp] at hok; cases hok
                | some t =>
                  rw [hp] at hok
                  dsimp only at hok
                  injection hok with h1 h2
                  subst h1
                  exact IsPrimaryE.lit _
              | false =>
              dsimp only at hok
              cases hmt5 : matchT ts [TokenType.LEFT_PAREN] i with
              | none => rw [hmt5] at hok; cases hok
              | some p5 =>
                obtain ⟨m5, j5⟩ := p5
                rw [hmt5] at hok
                cases m5 with
                | true =>
                  dsimp only at hok
                  cases hc : runRule ts f .expr j5 with
                  | ok e1 i1 =>
                    rw [hc] at hok
                    dsimp only at hok
                    cases hcc : consumeT ts .RIGHT_PAREN i1 with
                    | ok t jj =>
                      rw [hcc] at hok
                      dsimp only at hok
                      injection hok with h1 h2
                      subst h1
                      exact IsPrimaryE.grp e1 (ih .expr j5 trivial e1 i1 hc)
                    | parseError => rw [hcc] at hok; cases hok
                    | indexError => rw [hcc] at hok; cases hok
                    | fuelOut => rw [hcc] at hok; cases hok
                  | parseError => rw [hc] at hok; cases hok
                  | indexError => rw [hc] at hok; cases hok
                  | fuelOut => rw [hc] at hok; cases hok
                | false =>
                dsimp only at hok
                cases hpk : peekT ts i with
                | none => rw [hpk] at hok; cases hok
                | some t => rw [hpk] at hok; cases hok

end Parser

/-! ## Claim theorems -/

/-- C1: the claim says `Grouping` is a pass-through, but
`Interpreter.visit_grouping` evaluates the inner expression without
returning it, so every successfully evaluated grouping yields `None`;
consequently `(1 + 2) * 3` does not evaluate to `9` — the outer `*`
receives `None` as its left operand and raises a Python `TypeError`. -/
theorem c1_grouping_discards_inner_value :
    (∀ e v, evaluate e = .ok v → evaluate (.grouping e) = .ok .vnil) ∧
    evaluate (.grouping (.literal (.vnum 1))) = .ok .vnil ∧
    pipeline_eval "(1 + 2) * 3" = some (.error .typeError) := by
  refine ⟨?_, rfl, rfl⟩
  intro e v h
  simp only [evaluate, h]
  rfl

/-- Closed instance of the hypothesis-bearing part of
`c1_grouping_discards_inner_value`: evaluating `Literal 2` yields `2`, yet
evaluating the grouping around it yields `None`, not `2`. -/
theorem c1_grouping_discards_inner_value_witness :
    evaluate (.grouping (.literal (.vnum 2))) = .ok .vnil ∧
    evaluate (.literal (.vnum 2)) = .ok (.vnum 2) :=
  ⟨c1_grouping_discards_inner_value.1 (.literal (.vnum 2)) (.vnum 2) rfl, rfl⟩

/-- C2: the claim says BANG returns the negation of the operand's
truthiness. The truthiness policy itself is implemented as claimed
(`is_truthy`: `None` and `False` falsy, `0` and `""` truthy), but
`visit_unary` compares the stored operator `Token` against `TokenType.BANG`
directly, which is always `False`; evaluation of every unary node falls
through and returns `None`, so `!nil`, `!false`, `!0` and `!""` all
evaluate to `None`, not booleans. -/
theorem c2_unary_bang_returns_nil :
    (∀ (t : Token) (v : Value), evaluate (.unary t (.literal v)) = .ok .vnil) ∧
    is_truthy .vnil = false ∧
    is_truthy (.vbool false) = false ∧
    is_truthy (.vnum 0) = true ∧
    is_truthy (.vstr "") = true ∧
    pipeline_eval "!nil" = some (.ok .vnil) ∧
    pipeline_eval "!false" = some (.ok .vnil) ∧
    pipeline_eval "!0" = some (.ok .vnil) ∧
    pipeline_eval "!\"\"" = some (.ok .vnil) :=
  ⟨fun _ _ => rfl, rfl, rfl, rfl, rfl, rfl, rfl, rfl, rfl⟩

/-- C3: the claim says unary MINUS negates numbers and raises
`LoxRuntimeError("Operand must be a number")` otherwise. The guard
`check_number_operand` would indeed raise exactly that error on a string,
but `visit_unary` compares its operator `Token` against
`TokenType.MINUS` directly (always `False`), so the MINUS branch is never
taken: every unary evaluation returns `None` — `- - 5` evaluates to
`None` rather than `5`, and `-"x"` returns `None` instead of raising. -/
theorem c3_unary_minus_returns_nil :
    (∀ (t : Token) (q : ℚ), evaluate (.unary t (.literal (.vnum q))) = .ok .vnil) ∧
    check_number_operand minusTok (.vstr "x") =
      .error (.loxRuntimeError minusTok "Operand must be a number") ∧
    pipeline_eval "- - 5" = some (.ok .vnil) ∧
    pipeline_eval "-\"x\"" = some (.ok .vnil) :=
  ⟨fun _ _ => rfl, rfl, rfl, rfl⟩

/-- C4: the claim says an unterminated string reports one lexical error,
appends no token, and scanning still returns an EOF-terminated list
without raising. The error is indeed reported exactly once and no token
is appended, but `tokenize_string` then runs the unconditional
`self.advance()` meant for the closing quote; with the cursor at the end
of the source, `self.source[self.current]` raises an uncaught
`IndexError`, so `scan_tokens` returns no token list at all. -/
theorem c4_unterminated_string_raises :
    Scanner.scan_tokens "\"abc" = .indexError [(1, "Unterminated string")] := rfl

/-- C5: the claim says the keyword table maps sixteen keywords including
`for`. The `KEYWORDS` dict of `loxtoken.py` has only fifteen entries:
`"for"` is missing (even though `TokenType.FOR` exists and
`Parser.synchronize` expects it), so the lexeme `for` is emitted as an
`IDENTIFIER` token, while e.g. `while` is emitted with its reserved
kind. -/
theorem c5_for_keyword_missing :
    KEYWORDS.lookup "for" = none ∧
    KEYWORDS.length = 15 ∧
    Scanner.scan_tokens "for" =
      .ok [⟨.IDENTIFIER, "for", none, 1⟩, ⟨.EOF, "for", some (.str "EOF"), 1⟩] [] ∧
    Scanner.scan_tokens "while" =
      .ok [⟨.WHILE, "while", none, 1⟩, ⟨.EOF, "while", some (.str "EOF"), 1⟩] [] ∧
    KEYWORDS.lookup "while" = some .WHILE := by
  refine ⟨rfl, rfl, ?_, ?_, rfl⟩ <;> decide

/-- C6 counterexample: the claim says every `+` combination other than
number/number and string/string fails. But `isinstance(x, Number)` is
true for Python booleans (`bool` subclasses `int`), so `true + 1`
evaluates to the number `2` instead of failing. -/
theorem c6_plus_bool_counterexample :
    evaluate (.binary (.literal (.vbool true)) plusTok (.literal (.vnum 1))) =
      .ok (.vnum 2) := by
  have h : evaluate (.binary (.literal (.vbool true)) plusTok (.literal (.vnum 1))) =
      .ok (.vnum (1 + 1)) := rfl
  rw [h]
  norm_num

/-- C6 as amended: PLUS returns numeric addition when both operand values
are `Number`s — where booleans count as numbers, `true` as `1` and
`false` as `0` — string concatenation when both are strings, and raises
`InterpretationError("mismatched types")` for every other combination;
there is no implicit coercion between string and number. -/
theorem c6_plus_overload_amended (op : Token) (l r : Value)
    (h : op.token_type = .PLUS) :
    (∀ x y, toNum l = some x → toNum r = some y →
      evaluate (.binary (.literal l) op (.literal r)) = .ok (.vnum (x + y))) ∧
    (∀ s t, l = .vstr s → r = .vstr t →
      evaluate (.binary (.literal l) op (.literal r)) = .ok (.vstr (s ++ t))) ∧
    ((toNum l = none ∨ toNum r = none) →
      (∀ s t, ¬(l = .vstr s ∧ r = .vstr t)) →
      evaluate (.binary (.literal l) op (.literal r)) =
        .error (.interpretationError "mismatched types")) := by
  have hb : evaluate (.binary (.literal l) op (.literal r)) =
      visit_binary_result op l r := rfl
  refine ⟨?_, ?_, ?_⟩
  · intro x y hx hy
    rw [hb]
    simp [visit_binary_result, h, hx, hy]
  · intro s t hs ht
    subst hs; subst ht
    rw [hb]
    simp [visit_binary_result, h, toNum]
  · intro hnone hnotstr
    rw [hb]
    simp only [visit_binary_result, h]
    cases l <;> cases r <;> simp_all [toNum]

/-- Closed instance of `c6_plus_overload_amended`: `1 + 2` is `3`,
`"foo" + "bar"` is `"foobar"`, and `"foo" + 1` raises the
`InterpretationError("mismatched types")`. -/
theorem c6_plus_overload_amended_witness :
    evaluate (.binary (.literal (.vnum 1)) plusTok (.literal (.vnum 2))) = .ok (.vnum 3) ∧
    evaluate (.binary (.literal (.vstr "foo")) plusTok (.literal (.vstr "bar"))) =
      .ok (.vstr "foobar") ∧
    evaluate (.binary (.literal (.vstr "foo")) plusTok (.literal (.vnum 1))) =
      .error (.interpretationError "mismatched types") := by
  refine ⟨?_, ?_, ?_⟩
  · have h := (c6_plus_overload_amended plusTok (.vnum 1) (.vnum 2) rfl).1 1 2 rfl rfl
    rw [h]; norm_num
  · exact (c6_plus_overload_amended plusTok (.vstr "foo") (.vstr "bar") rfl).2.1
      "foo" "bar" rfl rfl
  · exact (c6_plus_overload_amended plusTok (.vstr "foo") (.vnum 1) rfl).2.2
      (Or.inl rfl) (fun s t hst => by simp at hst)

/-- C7: the parser respects standard precedence. For all numeric literals
and any additive operator `op1` and multiplicative operator `op2`, the
token sequence `a op1 b op2 c` parses with `op2` binding tighter, and
`a op2 b op1 c` parses with the `op2` application on the left — not the
flat left fold that would ignore precedence; moreover every tree any
`expression()` parse returns lies in the stratified-grammar shape
`IsEqualityE` (multiplicative nodes never have a bare additive child
except through `Grouping`), and `1 + 2 * 3` evaluates to `7`, the value
of `(+ 1 (* 2 3))`. -/
theorem c7_standard_precedence (a b c : ℚ) (op1 op2 : Token)
    (h1 : op1 = plusTok ∨ op1 = minusTok) (h2 : op2 = starTok ∨ op2 = slashTok) :
    Parser.parse [numTok a, op1, numTok b, op2, numTok c, eofTok] =
      .tree (.binary (.literal (.vnum a)) op1
        (.binary (.literal (.vnum b)) op2 (.literal (.vnum c)))) ∧
    Parser.parse [numTok a, op2, numTok b, op1, numTok c, eofTok] =
      .tree (.binary (.binary (.literal (.vnum a)) op2 (.literal (.vnum b))) op1
        (.literal (.vnum c))) ∧
    (.binary (.literal (.vnum a)) op1
        (.binary (.literal (.vnum b)) op2 (.literal (.vnum c))) : Expr) ≠
      .binary (.binary (.literal (.vnum a)) op1 (.literal (.vnum b))) op2
        (.literal (.vnum c)) ∧
    (∀ (ts : List Token) (f i : Nat) (e : Expr) (j : Nat),
      Parser.runRule ts f .expr i = .ok e j → IsEqualityE e) ∧
    pipeline_eval "1 + 2 * 3" = some (.ok (.vnum 7)) := by
  refine ⟨?_, ?_, ?_, ?_, ?_⟩
  · rcases h1 with rfl | rfl <;> rcases h2 with rfl | rfl <;> rfl
  · rcases h1 with rfl | rfl <;> rcases h2 with rfl | rfl <;> rfl
  · intro hcon
    injection hcon with hl hop hr
    cases hl
  · intro ts f i e j hok
    exact Parser.runRule_shape ts f .expr i trivial e j hok
  · have h : pipeline_eval "1 + 2 * 3" = some (.ok (.vnum (1 + 2 * 3))) := rfl
    rw [h]
    norm_num

/-- Closed instance of `c7_standard_precedence`: `1 + 2 * 3` parses to
the tree of `(+ 1 (* 2 3))`, and `1 * 2 + 3` to the tree of
`(+ (* 1 2) 3)`. -/
theorem c7_standard_precedence_witness :
    Parser.parse [numTok 1, plusTok, numTok 2, starTok, numTok 3, eofTok] =
      .tree (.binary (.literal (.vnum 1)) plusTok
        (.binary (.literal (.vnum 2)) starTok (.literal (.vnum 3)))) ∧
    Parser.parse [numTok 1, starTok, numTok 2, plusTok, numTok 3, eofTok] =
      .tree (.binary (.binary (.literal (.vnum 1)) starTok (.literal (.vnum 2))) plusTok
        (.literal (.vnum 3))) :=
  ⟨(c7_standard_precedence 1 2 3 plusTok starTok (Or.inl rfl) (Or.inl rfl)).1,
   (c7_standard_precedence 1 2 3 plusTok starTok (Or.inl rfl) (Or.inl rfl)).2.1⟩

/-- C8: each binary level of the parser left-folds successive
same-precedence operators into a left-leaning `Binary` chain. For all
numeric literals and additive operators, `a op1 b op2 c` parses as
`(a op1 b) op2 c`; in particular `8 - 4 - 2` evaluates to `2` (the value
of `(8-4)-2`), while the right-leaning tree `8 - (4 - 2)` would evaluate
to `6`. -/
theorem c8_left_associativity (a b c : ℚ) (op1 op2 : Token)
    (h1 : op1 = minusTok ∨ op1 = plusTok) (h2 : op2 = minusTok ∨ op2 = plusTok) :
    Parser.parse [numTok a, op1, numTok b, op2, numTok c, eofTok] =
      .tree (.binary (.binary (.literal (.vnum a)) op1 (.literal (.vnum b))) op2
        (.literal (.vnum c))) ∧
    pipeline_eval "8 - 4 - 2" = some (.ok (.vnum 2)) ∧
    evaluate (.binary (.literal (.vnum 8)) minusTok
      (.binary (.literal (.vnum 4)) minusTok (.literal (.vnum 2)))) = .ok (.vnum 6) := by
  refine ⟨?_, ?_, ?_⟩
  · rcases h1 with rfl | rfl <;> rcases h2 with rfl | rfl <;> rfl
  · have h : pipeline_eval "8 - 4 - 2" = some (.ok (.vnum ((8 - 4) - 2))) := rfl
    rw [h]
    norm_num
  · have h : evaluate (.binary (.literal (.vnum 8)) minusTok
        (.binary (.literal (.vnum 4)) minusTok (.literal (.vnum 2)))) =
          .ok (.vnum (8 - (4 - 2))) := rfl
    rw [h]
    norm_num

/-- Closed instance of `c8_left_associativity` at `8 - 4 - 2`: the parse
tree is the left-leaning `(8-4)-2` and the pipeline yields `2`. -/
theorem c8_left_associativity_witness :
    Parser.parse [numTok 8, minusTok, numTok 4, minusTok, numTok 2, eofTok] =
      .tree (.binary (.binary (.literal (.vnum 8)) minusTok (.literal (.vnum 4))) minusTok
        (.literal (.vnum 2))) ∧
    pipeline_eval "8 - 4 - 2" = some (.ok (.vnum 2)) :=
  ⟨(c8_left_associativity 8 4 2 minusTok minusTok (Or.inl rfl) (Or.inl rfl)).1,
   (c8_left_associativity 8 4 2 minusTok minusTok (Or.inl rfl) (Or.inl rfl)).2.1⟩

/-- C10: the lexer and the parser terminate on every finite input. Every
successful `scan_token` call strictly advances the cursor; the scanning
loop, run with fuel `len + 1`, never exhausts it, on any source
whatsoever; and on an EOF-terminated token list `parse`'s recursion, run
with fuel `8 * len + 8`, never exhausts it and never indexes out of the
token list, its cursor moving strictly forward and staying inside the
list. -/
theorem c10_single_pass_termination :
    (∀ (src : List Char) (st st' : Scanner.SState),
        Scanner.scan_token src st = .ok st' → st.current < st'.current) ∧
    (∀ source : String, Scanner.scan_tokens source ≠ .fuelOut) ∧
    (∀ ts : List Token, eof_terminated ts →
        Parser.parse ts ≠ .fuelOut ∧ Parser.parse ts ≠ .raisedIndex) ∧
    (∀ (ts : List Token), eof_terminated ts → ∀ (f i : Nat) (e : Expr) (j : Nat),
        i < ts.length → 8 * (ts.length - i) + 7 ≤ f →
        Parser.runRule ts f .expr i = .ok e j → i < j ∧ j < ts.length) := by
  refine ⟨?_, ?_, ?_, ?_⟩
  · exact fun src st st' h => (Scanner.scan_token_ok_state h).1
  · exact Scanner.scan_tokens_no_fuelOut
  · intro ts hT
    have hne : ts ≠ [] := by
      intro hnil
      obtain ⟨t, hlast, _⟩ := hT
      rw [hnil] at hlast
      cases hlast
    have h0 : 0 < ts.length := List.length_pos.mpr hne
    have hfuel := Parser.runRule_fuel hT (8 * ts.length + 8) .expr 0 h0
      (by simp only [Parser.ruleBudget]; omega)
    unfold Parser.parse Parser.expressionP
    cases hr : Parser.runRule ts (8 * ts.length + 8) .expr 0 with
    | ok e j => exact ⟨fun hcon => (by cases hcon), fun hcon => (by cases hcon)⟩
    | parseError => exact ⟨fun hcon => (by cases hcon), fun hcon => (by cases hcon)⟩
    | indexError => exact absurd hr hfuel.2.1
    | fuelOut => exact absurd hr hfuel.1
  · intro ts hT f i e j hi hf hok
    have h := (Parser.runRule_fuel hT f .expr i hi
      (by simp only [Parser.ruleBudget]; omega)).2.2 e j hok
    exact ⟨h.2.2 rfl, h.2.1⟩

/-- Closed instance of `c10_single_pass_termination`: scanning the single
character `a` advances the cursor from `0` to `1`, and parsing the
EOF-terminated list `[NUMBER 1, EOF]` runs out of neither fuel nor
bounds, returning the literal having consumed exactly one token. -/
theorem c10_single_pass_termination_witness :
    Scanner.init.current <
      (⟨[⟨.IDENTIFIER, "a", none, 1⟩], 0, 1, 1, []⟩ : Scanner.SState).current ∧
    (Parser.parse [numTok 1, eofTok] ≠ .fuelOut ∧
      Parser.parse [numTok 1, eofTok] ≠ .raisedIndex) ∧
    ((0 : Nat) < 1 ∧ 1 < ([numTok 1, eofTok] : List Token).length) := by
  refine ⟨?_, ?_, ?_⟩
  · exact c10_single_pass_termination.1 "a".toList Scanner.init
      ⟨[⟨.IDENTIFIER, "a", none, 1⟩], 0, 1, 1, []⟩ rfl
  · exact c10_single_pass_termination.2.2.1 [numTok 1, eofTok] ⟨eofTok, rfl, rfl⟩
  · exact c10_single_pass_termination.2.2.2 [numTok 1, eofTok] ⟨eofTok, rfl, rfl⟩
      24 0 (.literal (.vnum 1)) 1 (by decide) (by decide) rfl

/-- C9 as amended: whenever `scan_tokens` returns a token list (it can
also raise, see C4), that list ends with exactly one appended synthetic
EOF token whose literal is the string `'EOF'`; but because the EOF token
is appended through `add_token`, its lexeme is the leftover slice
`source[start:current]` of the final scan — nonempty whenever the source
is nonempty — rather than the empty string. -/
theorem c9_scan_ends_with_eof_amended (source : String) (ts : List Token)
    (errs : List (Nat × String)) (h : Scanner.scan_tokens source = .ok ts errs) :
    ∃ front tok, ts = front ++ [tok] ∧ tok.token_type = .EOF ∧
      tok.literal = some (.str "EOF") ∧ (source ≠ "" → tok.lexeme ≠ "") := by
  unfold Scanner.scan_tokens at h
  dsimp only at h
  cases hloop : Scanner.scan_loop source.toList (source.toList.length + 1) Scanner.init with
  | done st =>
    rw [hloop] at h
    dsimp only [Scanner.add_token] at h
    injection h with h1 h2
    refine ⟨st.tokens, _, h1.symm, rfl, rfl, ?_⟩
    intro hsrc
    have hne : source.toList ≠ [] := by
      intro hl
      apply hsrc
      cases source
      unfold String.toList at hl
      dsimp only at hl
      subst hl
      rfl
    obtain ⟨hlen, hcase⟩ := Scanner.scan_loop_done source.toList _ _ _ hloop
    rcases hcase with rfl | ⟨hsc, hsl⟩
    · have hz : Scanner.init.current = 0 := rfl
      exact absurd (List.length_eq_zero.mp (by omega)) hne
    · exact Scanner.slice_ne_empty hsc hsl
  | raised st => rw [hloop] at h; cases h
  | fuelOut => rw [hloop] at h; cases h

/-- Closed instance of `c9_scan_ends_with_eof_amended` at the source
`1`: the scanned token list decomposes as a front followed by one EOF
token with literal `'EOF'` and a nonempty lexeme. -/
theorem c9_scan_ends_with_eof_amended_witness :
    ∃ front tok,
      ([⟨.NUMBER, "1", some (.num 1), 1⟩, ⟨.EOF, "1", some (.str "EOF"), 1⟩] :
          List Token) = front ++ [tok] ∧
      tok.token_type = .EOF ∧ tok.literal = some (.str "EOF") ∧
      (("1" : String) ≠ "" → tok.lexeme ≠ "") :=
  c9_scan_ends_with_eof_amended "1"
    [⟨.NUMBER, "1", some (.num 1), 1⟩, ⟨.EOF, "1", some (.str "EOF"), 1⟩] []
    (by decide)

/-- C9 counterexample: the claim says the trailing EOF token has an empty
lexeme. Scanning the source `1` appends the EOF token with lexeme `"1"`
(the slice `source[start:current]` left over from the last scan), which
is not the empty string. -/
theorem c9_eof_lexeme_counterexample :
    Scanner.scan_tokens "1" =
      .ok [⟨.NUMBER, "1", some (.num 1), 1⟩, ⟨.EOF, "1", some (.str "EOF"), 1⟩] [] ∧
    ("1" : String) ≠ "" := by
  refine ⟨by decide, by decide⟩

end Spanlox

